import Mathlib

/-!
Verification development for the `fs-cleaner` redundant-nesting repair tool.

The Rust sources (`analyzer.rs`, `scanner.rs`, `mover.rs`, `journal.rs`,
`error.rs`) are shallowly embedded here.  A path is modelled as its list of
components below the filesystem root; a filesystem state is a finite domain
of existing paths together with a kind assignment (file, directory, or
symlink) for each path.  Rename failures injected by the environment
(e.g. a cross-device rename) are modelled by an oracle carried in the state.

Modelling conventions, stated once:
* input paths are taken to be absolute and free of `.`/`..`/symlink
  components, so `std::fs::canonicalize` succeeds exactly on existing paths
  and acts as the identity on them;
* `fs::rename` moves the whole subtree rooted at the source; the operations
  verified below never rename onto an existing path, and an existing
  destination subtree is replaced (POSIX file-overwrite semantics);
* the contents of an ordinary file are opaque bytes, except that the journal
  file written by `serde_json` is kept as the structured list it encodes
  (the byte-level JSON round-trip is external library behaviour).
-/

namespace FsCleaner

/-- A filesystem path: the list of name components below the root. -/
abbrev Path := List String

/-- Rendering of a path, as `Path::display` renders a canonical path. -/
def pathDisplay (p : Path) : String :=
  "/" ++ String.intercalate "/" p

/-- One completed or simulated relocation (`mover.rs`, `MoveRecord`). -/
structure MoveRecord where
  «from» : Path
  «to» : Path
deriving DecidableEq, Repr

/-- Contents of an ordinary file.  The journal file is kept structured. -/
inductive FileData where
  | bytes (s : String)
  | journalJson (entries : List MoveRecord)
deriving DecidableEq, Repr

/-- The kind of a filesystem node. -/
inductive NodeKind where
  | file (data : FileData)
  | dir
  | symlink (target : Path)
deriving DecidableEq, Repr

/-- A filesystem state: existing paths, their kinds, and the environment's
rename-failure oracle (true means the OS would refuse the rename, e.g. a
cross-device move). -/
structure FS where
  dom : List Path
  kind : Path → NodeKind
  renameFails : Path → Path → Bool

/-- `Path::exists` (on symlink-free canonical paths). -/
def FS.pathExists (fs : FS) (p : Path) : Prop := p ∈ fs.dom

instance (fs : FS) (p : Path) : Decidable (fs.pathExists p) :=
  inferInstanceAs (Decidable (p ∈ fs.dom))

/-- `Path::is_dir`. -/
def FS.isDir (fs : FS) (p : Path) : Prop := p ∈ fs.dom ∧ fs.kind p = .dir

instance (fs : FS) (p : Path) : Decidable (fs.isDir p) :=
  inferInstanceAs (Decidable (p ∈ fs.dom ∧ fs.kind p = .dir))

/-- `std::fs::canonicalize`: on the absolute, symlink-free paths of this
model it succeeds exactly on existing paths and is the identity there. -/
def FS.canonicalize (fs : FS) (p : Path) : Option Path :=
  if p ∈ fs.dom then some p else none

/-- `std::fs::rename`: fails when the environment oracle refuses it, when
source and destination lie on one line of ancestry (POSIX `EINVAL`), or when
the source does not exist; otherwise the whole subtree rooted at `src` is
relocated below `dest`, replacing any subtree previously at `dest`. -/
def FS.rename (fs : FS) (src dest : Path) : Option FS :=
  if fs.renameFails src dest then none
  else if src.isPrefixOf dest ∨ dest.isPrefixOf src then none
  else if src ∈ fs.dom then
    some { fs with
      dom := fs.dom.filterMap (fun p =>
        if dest.isPrefixOf p then none
        else if src.isPrefixOf p then some (dest ++ p.drop src.length)
        else some p),
      kind := fun q =>
        if dest.isPrefixOf q then fs.kind (src ++ q.drop dest.length)
        else fs.kind q }
  else none

/-- `std::fs::remove_dir`: removes `p` only if it is a directory with no
remaining entries. -/
def FS.removeDir (fs : FS) (p : Path) : Option FS :=
  if fs.isDir p ∧ ∀ q ∈ fs.dom, q = p ∨ (p.isPrefixOf q) = false then
    some { fs with dom := fs.dom.filter (fun q => q ≠ p) }
  else none

/-- `std::fs::write`: creates or truncates the file at `p`; requires the
parent directory to exist and `p` not to be a directory. -/
def FS.writeFile (fs : FS) (p : Path) (data : FileData) : Option FS :=
  if p.getLast?.isSome ∧ fs.isDir p.dropLast ∧ ¬ fs.isDir p then
    some { fs with
      dom := if p ∈ fs.dom then fs.dom else p :: fs.dom,
      kind := fun q => if q = p then .file data else fs.kind q }
  else none

/-- `std::fs::read_to_string`: succeeds only on existing ordinary files. -/
def FS.readFile (fs : FS) (p : Path) : Option FileData :=
  if p ∈ fs.dom then
    match fs.kind p with
    | .file d => some d
    | _ => none
  else none

/-- The closed error set of `error.rs`. -/
inductive Error where
  | io (path : Path)
  | collision (existing : Path)
  | permission (path : Path)
  | brokenSymlink (link : Path) (target : Path)
  | crossDevice (path : Path)
  | other (msg : String)
deriving DecidableEq, Repr

instance {ε α : Type} [DecidableEq ε] [DecidableEq α] : DecidableEq (Except ε α) := fun x y =>
  match x, y with
  | .error a, .error b =>
    if h : a = b then .isTrue (by rw [h])
    else .isFalse (fun hc => h (Except.error.inj hc))
  | .error _, .ok _ => .isFalse (fun hc => Except.noConfusion hc)
  | .ok _, .error _ => .isFalse (fun hc => Except.noConfusion hc)
  | .ok a, .ok b =>
    if h : a = b then .isTrue (by rw [h])
    else .isFalse (fun hc => h (Except.ok.inj hc))

/-! ## Detector (`analyzer.rs`) -/

/-- A detected case of redundant directory nesting. -/
structure NestingCandidate where
  parent : Path
  nested : Path
  children : List Path
deriving DecidableEq, Repr

/-- Component-wise lexicographic order on paths, as Rust orders `PathBuf`. -/
def pathLe : Path → Path → Bool
  | [], _ => true
  | _ :: _, [] => false
  | a :: as, b :: bs =>
    if a < b then true
    else if b < a then false
    else pathLe as bs

/-- The propositional form of `pathLe`. -/
def pathLeP (p q : Path) : Prop := pathLe p q = true

instance : DecidableRel pathLeP := fun p q =>
  inferInstanceAs (Decidable (pathLe p q = true))

/-- `Vec::sort` on a vector of paths. -/
def sortPaths (l : List Path) : List Path := List.insertionSort pathLeP l

/-- Immediate-entry test: `q` is a direct entry of directory `p`. -/
def childOfB (p q : Path) : Bool :=
  q.length == p.length + 1 && p.isPrefixOf q

/-- `list_dir`: immediate children of a directory, sorted. -/
def list_dir (fs : FS) (p : Path) : Except Error (List Path) :=
  if fs.isDir p then .ok (sortPaths (fs.dom.filter (fun q => childOfB p q)))
  else .error (.io p)

/-- `detect_nesting`: canonicalize the root, find its own final name
component, and report the self-named child directory if present. -/
def detect_nesting (fs : FS) (root : Path) : Except Error (List NestingCandidate) :=
  match fs.canonicalize root with
  | none => .error (.io root)
  | some rc =>
    match rc.getLast? with
    | none => .error (.other ("cannot determine name of " ++ pathDisplay rc))
    | some dirName =>
      let candidate := rc ++ [dirName]
      if fs.isDir candidate then
        match list_dir fs candidate with
        | .error e => .error e
        | .ok children => .ok [⟨rc, candidate, children⟩]
      else .ok []

/-! ## Risk Scanner (`scanner.rs`) -/

/-- A name collision blocking a flatten. -/
structure Collision where
  source : Path
  existing : Path
deriving DecidableEq, Repr

/-- An advisory symlink risk. -/
structure SymlinkRisk where
  link : Path
  target : Path
  target_inside_nested : Bool
deriving DecidableEq, Repr

/-- The scanner's report for one candidate. -/
structure ScanReport where
  collisions : List Collision
  symlink_risks : List SymlinkRisk
deriving DecidableEq, Repr

/-- `detect_collisions`: a child collides when an entry already exists at
its destination name in the parent (the nested directory itself excepted). -/
def detect_collisions (fs : FS) (c : NestingCandidate) : List Collision :=
  c.children.filterMap (fun child =>
    match child.getLast? with
    | none => none
    | some name =>
      let dest := c.parent ++ [name]
      if dest = c.nested then none
      else if fs.pathExists dest then some ⟨child, dest⟩
      else none)

/-- `detect_symlink_risks`: every symlink anywhere under the nested subtree
is reported, classified by whether its target lies inside that subtree.
(`WalkDir` visits depth-first; the report order here follows the domain
enumeration, which no verified property depends on.) -/
def detect_symlink_risks (fs : FS) (c : NestingCandidate) : List SymlinkRisk :=
  (fs.dom.filter (fun p => c.nested.isPrefixOf p)).filterMap (fun p =>
    match fs.kind p with
    | .symlink target => some ⟨p, target, c.nested.isPrefixOf target⟩
    | _ => none)

/-- `scan`: pure risk analysis for one candidate. -/
def scan (fs : FS) (c : NestingCandidate) : ScanReport :=
  { collisions := detect_collisions fs c
    symlink_risks := detect_symlink_risks fs c }

/-- `ScanReport::is_safe`. -/
def ScanReport.is_safe (r : ScanReport) : Bool := r.collisions.isEmpty

/-! ## Mover (`mover.rs`) -/

/-- Result of applying a flatten operation. -/
structure MoveResult where
  moved : List MoveRecord
deriving DecidableEq, Repr

/-- The child-processing loop of `flatten`: for each child compute its
destination in the parent, skip the nested directory's own name, rename
unless dry-running, and record the move. -/
def flattenLoop (fs : FS) (parent nested : Path) (children : List Path)
    (dryRun : Bool) (moved : List MoveRecord) : FS × Except Error (List MoveRecord) :=
  match children with
  | [] => (fs, .ok moved)
  | child :: rest =>
    match child.getLast? with
    | none => (fs, .error (.other ("no filename for " ++ pathDisplay child)))
    | some name =>
      let dest := parent ++ [name]
      if dest = nested then
        flattenLoop fs parent nested rest dryRun moved
      else if dryRun then
        flattenLoop fs parent nested rest dryRun (moved ++ [⟨child, dest⟩])
      else
        match fs.rename child dest with
        | none => (fs, .error (.io child))
        | some fs' => flattenLoop fs' parent nested rest dryRun (moved ++ [⟨child, dest⟩])

/-- `flatten`: abort on any collision, move every child up one level
(unless dry-running), then remove the emptied nested directory. -/
def flatten (fs : FS) (c : NestingCandidate) (dryRun : Bool) :
    FS × Except Error MoveResult :=
  match (scan fs c).collisions with
  | col :: _ => (fs, .error (.collision col.existing))
  | [] =>
    match flattenLoop fs c.parent c.nested c.children dryRun [] with
    | (fs', .error e) => (fs', .error e)
    | (fs', .ok moved) =>
      if dryRun then (fs', .ok ⟨moved⟩)
      else
        match fs'.removeDir c.nested with
        | none => (fs', .error (.io c.nested))
        | some fs'' => (fs'', .ok ⟨moved⟩)

/-! ## Journal (`journal.rs`) -/

/-- The fixed on-disk journal file name. -/
def journalFileName : String := ".fs-cleaner-journal.json"

/-- Persistent record of moves performed, enabling rollback. -/
structure Journal where
  entries : List MoveRecord
deriving DecidableEq, Repr

/-- `Journal::new`. -/
def Journal.new : Journal := ⟨[]⟩

/-- `Journal::record`: appends a batch of moves in order. -/
def Journal.record (j : Journal) (moves : List MoveRecord) : Journal :=
  ⟨j.entries ++ moves⟩

/-- `Journal::save`: serialize the entries to the fixed file name inside
`dir`, overwriting any existing journal there. -/
def Journal.save (fs : FS) (j : Journal) (dir : Path) : FS × Except Error Path :=
  let path := dir ++ [journalFileName]
  match fs.writeFile path (.journalJson j.entries) with
  | none => (fs, .error (.io path))
  | some fs' => (fs', .ok path)

/-- `Journal::load`: read and parse the journal file inside `dir`. -/
def Journal.load (fs : FS) (dir : Path) : Except Error Journal :=
  let path := dir ++ [journalFileName]
  match fs.readFile path with
  | none => .error (.io path)
  | some (.journalJson es) => .ok ⟨es⟩
  | some (.bytes _) => .error (.other "journal parse error")

/-- The entry-processing loop of `Journal::rollback`: rename each still
existing destination back to its origin, silently skipping the rest. -/
def rollbackLoop (fs : FS) (entries : List MoveRecord) (count : Nat) :
    FS × Except Error Nat :=
  match entries with
  | [] => (fs, .ok count)
  | r :: rest =>
    if fs.pathExists r.«to» then
      match fs.rename r.«to» r.«from» with
      | none => (fs, .error (.io r.«to»))
      | some fs' => rollbackLoop fs' rest (count + 1)
    else rollbackLoop fs rest count

/-- `Journal::rollback`: reverse all recorded moves, last-in first-out. -/
def Journal.rollback (fs : FS) (j : Journal) : FS × Except Error Nat :=
  rollbackLoop fs j.entries.reverse 0

/-! ## Path and prefix lemmas -/

theorem prefixOf_iff : ∀ (p q : Path), p.isPrefixOf q = true ↔ ∃ r, q = p ++ r
  | [], q => by simp [List.isPrefixOf]
  | _ :: _, [] => by simp [List.isPrefixOf]
  | a :: as, b :: bs => by
    simp only [List.isPrefixOf, Bool.and_eq_true, beq_iff_eq]
    constructor
    · rintro ⟨rfl, h⟩
      obtain ⟨r, rfl⟩ := (prefixOf_iff as bs).1 h
      exact ⟨r, rfl⟩
    · rintro ⟨r, hr⟩
      rw [List.cons_append] at hr
      cases hr
      exact ⟨rfl, (prefixOf_iff as _).2 ⟨r, rfl⟩⟩

theorem prefixOf_append (p r : Path) : p.isPrefixOf (p ++ r) = true :=
  (prefixOf_iff _ _).2 ⟨r, rfl⟩

theorem prefixOf_refl (p : Path) : p.isPrefixOf p = true := by
  have h := prefixOf_append p []
  rwa [List.append_nil] at h

theorem prefixOf_length {p q : Path} (h : p.isPrefixOf q = true) :
    p.length ≤ q.length := by
  obtain ⟨r, rfl⟩ := (prefixOf_iff _ _).1 h
  simp

theorem not_prefixOf_of_lt {p q : Path} (h : q.length < p.length) :
    p.isPrefixOf q = false := by
  cases hpq : p.isPrefixOf q
  · rfl
  · exact absurd (prefixOf_length hpq) (by omega)

theorem eq_of_prefixOf_of_le {p q : Path} (h : p.isPrefixOf q = true)
    (hl : q.length ≤ p.length) : p = q := by
  obtain ⟨r, rfl⟩ := (prefixOf_iff _ _).1 h
  have : r = [] := by
    simp only [List.length_append] at hl
    exact List.eq_nil_of_length_eq_zero (by omega)
  simp [this]

/-- A prefix no longer than the left part of an append is a prefix of it. -/
theorem prefixOf_append_left {p q r : Path} (h : p.isPrefixOf (q ++ r) = true)
    (hl : p.length ≤ q.length) : p.isPrefixOf q = true := by
  obtain ⟨s, hs⟩ := (prefixOf_iff _ _).1 h
  apply (prefixOf_iff _ _).2
  refine ⟨q.drop p.length, ?_⟩
  have h1 : q.take p.length = p := by
    have h2 : (q ++ r).take p.length = q.take p.length :=
      List.take_append_of_le_length hl
    rw [hs, List.take_left] at h2
    exact h2.symm
  calc q = q.take p.length ++ q.drop p.length := (List.take_append_drop _ _).symm
    _ = p ++ q.drop p.length := by rw [h1]

/-- With a common base, a one-component extension is a prefix of another
extended path exactly when the first new components agree. -/
theorem snoc_prefixOf_append {p : Path} {a b : String} {r : Path} :
    (p ++ [a]).isPrefixOf ((p ++ [b]) ++ r) = true ↔ a = b := by
  constructor
  · intro h
    obtain ⟨t, ht⟩ := (prefixOf_iff _ _).1 h
    rw [List.append_assoc, List.append_assoc] at ht
    have h2 := List.append_cancel_left ht
    simp only [List.singleton_append] at h2
    injection h2 with h3 h4
    exact h3.symm
  · rintro rfl
    exact prefixOf_append _ _

theorem snoc_eq_snoc_iff {p : Path} {a b : String} :
    p ++ [a] = p ++ [b] ↔ a = b := by
  constructor
  · intro h
    simpa using List.append_cancel_left h
  · rintro rfl; rfl

/-- A two-component extension is never a prefix of a one-component one. -/
theorem snoc2_not_prefixOf_snoc {p : Path} {a b c : String} :
    ((p ++ [a]) ++ [b]).isPrefixOf (p ++ [c]) = false :=
  not_prefixOf_of_lt (by simp)

/-! ## Characterization of the filesystem operations -/

theorem rename_eq_some {fs fs' : FS} {src dest : Path}
    (h : fs.rename src dest = some fs') :
    fs.renameFails src dest = false ∧
    src.isPrefixOf dest = false ∧ dest.isPrefixOf src = false ∧
    src ∈ fs.dom ∧
    fs'.dom = fs.dom.filterMap (fun p =>
        if dest.isPrefixOf p then none
        else if src.isPrefixOf p then some (dest ++ p.drop src.length)
        else some p) ∧
    fs'.kind = (fun q =>
        if dest.isPrefixOf q then fs.kind (src ++ q.drop dest.length)
        else fs.kind q) ∧
    fs'.renameFails = fs.renameFails := by
  unfold FS.rename at h
  split_ifs at h with h1 h2 h3
  · cases h
    push_neg at h2
    exact ⟨Bool.eq_false_iff.mpr h1, Bool.eq_false_iff.mpr h2.1,
      Bool.eq_false_iff.mpr h2.2, h3, rfl, rfl, rfl⟩

/-- Membership in the domain after a successful rename. -/
theorem mem_rename_dom {fs fs' : FS} {src dest : Path}
    (h : fs.rename src dest = some fs') (q : Path) :
    q ∈ fs'.dom ↔
      (dest.isPrefixOf q = true ∧ (src ++ q.drop dest.length) ∈ fs.dom) ∨
      (dest.isPrefixOf q = false ∧ src.isPrefixOf q = false ∧ q ∈ fs.dom) := by
  obtain ⟨-, hsd, hds, -, hdom, -, -⟩ := rename_eq_some h
  rw [hdom, List.mem_filterMap]
  constructor
  · rintro ⟨p, hp, hfp⟩
    by_cases h1 : dest.isPrefixOf p = true
    · rw [if_pos h1] at hfp
      cases hfp
    · by_cases h2 : src.isPrefixOf p = true
      · rw [if_neg h1, if_pos h2] at hfp
        obtain ⟨t, rfl⟩ := (prefixOf_iff _ _).1 h2
        rw [List.drop_left] at hfp
        cases hfp
        refine Or.inl ⟨prefixOf_append _ _, ?_⟩
        rw [List.drop_left]
        exact hp
      · rw [if_neg h1, if_neg h2] at hfp
        cases hfp
        exact Or.inr ⟨Bool.eq_false_iff.mpr h1, Bool.eq_false_iff.mpr h2, hp⟩
  · rintro (⟨h1, h2⟩ | ⟨h1, h2, h3⟩)
    · refine ⟨src ++ q.drop dest.length, h2, ?_⟩
      have hnd : dest.isPrefixOf (src ++ q.drop dest.length) = false := by
        cases hcon : dest.isPrefixOf (src ++ q.drop dest.length)
        · rfl
        · rcases Nat.le_total dest.length src.length with hle | hle
          · have h4 := prefixOf_append_left hcon hle
            rw [hds] at h4
            exact Bool.noConfusion h4
          · obtain ⟨t, ht⟩ := (prefixOf_iff _ _).1 hcon
            have h4 : src.isPrefixOf (dest ++ t) = true := by
              rw [← ht]; exact prefixOf_append _ _
            have h5 := prefixOf_append_left h4 hle
            rw [hsd] at h5
            exact Bool.noConfusion h5
      rw [if_neg (by rw [hnd]; exact Bool.noConfusion),
        if_pos (prefixOf_append _ _), List.drop_left]
      obtain ⟨t, ht⟩ := (prefixOf_iff _ _).1 h1
      rw [ht, List.drop_left]
    · refine ⟨q, h3, ?_⟩
      rw [if_neg (by rw [h1]; exact Bool.noConfusion),
        if_neg (by rw [h2]; exact Bool.noConfusion)]

theorem rename_kind_eq {fs fs' : FS} {src dest : Path}
    (h : fs.rename src dest = some fs') (q : Path) :
    fs'.kind q =
      if dest.isPrefixOf q then fs.kind (src ++ q.drop dest.length)
      else fs.kind q := by
  obtain ⟨-, -, -, -, -, hkind, -⟩ := rename_eq_some h
  rw [hkind]

theorem rename_renameFails_eq {fs fs' : FS} {src dest : Path}
    (h : fs.rename src dest = some fs') : fs'.renameFails = fs.renameFails :=
  (rename_eq_some h).2.2.2.2.2.2

/-- Conditions under which a rename succeeds. -/
theorem rename_succeeds {fs : FS} {src dest : Path}
    (h1 : fs.renameFails src dest = false)
    (h2 : src.isPrefixOf dest = false) (h3 : dest.isPrefixOf src = false)
    (h4 : src ∈ fs.dom) :
    fs.rename src dest = some { fs with
      dom := fs.dom.filterMap (fun p =>
        if dest.isPrefixOf p then none
        else if src.isPrefixOf p then some (dest ++ p.drop src.length)
        else some p),
      kind := fun q =>
        if dest.isPrefixOf q then fs.kind (src ++ q.drop dest.length)
        else fs.kind q } := by
  unfold FS.rename
  rw [if_neg (by simp [h1]), if_neg (by simp [h2, h3]), if_pos h4]

theorem prefixOf_trans {p q r : Path} (h1 : p.isPrefixOf q = true)
    (h2 : q.isPrefixOf r = true) : p.isPrefixOf r = true := by
  obtain ⟨s, rfl⟩ := (prefixOf_iff _ _).1 h1
  obtain ⟨t, rfl⟩ := (prefixOf_iff _ _).1 h2
  exact (prefixOf_iff _ _).2 ⟨s ++ t, by rw [List.append_assoc]⟩

theorem snoc_prefixOf_snoc {p : Path} {a b : String} :
    (p ++ [a]).isPrefixOf (p ++ [b]) = true ↔ a = b := by
  have h := @snoc_prefixOf_append p a b []
  rwa [List.append_nil] at h

theorem eq_false_of_iff {b : Bool} {P : Prop} (h : b = true ↔ P) (hp : ¬P) :
    b = false := by
  cases hb : b
  · rfl
  · exact absurd (h.1 hb) hp

/-! ## Unfolding lemmas for the mover's loop -/

theorem flattenLoop_nil (fs : FS) (parent nested : Path) (d : Bool)
    (acc : List MoveRecord) :
    flattenLoop fs parent nested [] d acc = (fs, .ok acc) := rfl

theorem flattenLoop_cons_none {child : Path}
    (fs : FS) (parent nested : Path) (d : Bool) (rest : List Path)
    (acc : List MoveRecord) (hgl : child.getLast? = none) :
    flattenLoop fs parent nested (child :: rest) d acc =
      (fs, .error (.other ("no filename for " ++ pathDisplay child))) := by
  rw [flattenLoop, hgl]

theorem flattenLoop_cons_skip {child : Path} {n : String}
    (fs : FS) (parent nested : Path) (d : Bool) (rest : List Path)
    (acc : List MoveRecord) (hgl : child.getLast? = some n)
    (heq : parent ++ [n] = nested) :
    flattenLoop fs parent nested (child :: rest) d acc =
      flattenLoop fs parent nested rest d acc := by
  rw [flattenLoop, hgl]
  simp [heq]

theorem flattenLoop_cons_dry {child : Path} {n : String}
    (fs : FS) (parent nested : Path) (rest : List Path)
    (acc : List MoveRecord) (hgl : child.getLast? = some n)
    (hne : parent ++ [n] ≠ nested) :
    flattenLoop fs parent nested (child :: rest) true acc =
      flattenLoop fs parent nested rest true (acc ++ [⟨child, parent ++ [n]⟩]) := by
  rw [flattenLoop, hgl]
  simp [hne]

theorem flattenLoop_cons_wet {child : Path} {n : String} {fs fs₁ : FS}
    (parent nested : Path) (rest : List Path)
    (acc : List MoveRecord) (hgl : child.getLast? = some n)
    (hne : parent ++ [n] ≠ nested)
    (hre : fs.rename child (parent ++ [n]) = some fs₁) :
    flattenLoop fs parent nested (child :: rest) false acc =
      flattenLoop fs₁ parent nested rest false (acc ++ [⟨child, parent ++ [n]⟩]) := by
  rw [flattenLoop, hgl]
  simp [hne, hre]

theorem flattenLoop_cons_fail {child : Path} {n : String} {fs : FS}
    (parent nested : Path) (rest : List Path)
    (acc : List MoveRecord) (hgl : child.getLast? = some n)
    (hne : parent ++ [n] ≠ nested)
    (hre : fs.rename child (parent ++ [n]) = none) :
    flattenLoop fs parent nested (child :: rest) false acc =
      (fs, .error (.io child)) := by
  rw [flattenLoop, hgl]
  simp [hne, hre]

/-- The loop on an appended list runs the first part, then the second. -/
theorem flattenLoop_append_ok (parent nested : Path) (d : Bool) :
    ∀ (l₁ : List Path) (fs fs₁ : FS) (acc m : List MoveRecord)
      (l₂ : List Path),
      flattenLoop fs parent nested l₁ d acc = (fs₁, .ok m) →
      flattenLoop fs parent nested (l₁ ++ l₂) d acc =
        flattenLoop fs₁ parent nested l₂ d m
  | [], fs, fs₁, acc, m, l₂, h => by
    rw [flattenLoop_nil] at h
    cases h
    rw [List.nil_append]
  | child :: rest, fs, fs₁, acc, m, l₂, h => by
    rw [List.cons_append]
    cases hgl : child.getLast? with
    | none =>
      rw [flattenLoop_cons_none fs parent nested d rest acc hgl] at h
      cases h
    | some n =>
      by_cases heq : parent ++ [n] = nested
      · rw [flattenLoop_cons_skip fs parent nested d _ acc hgl heq] at h ⊢
        exact flattenLoop_append_ok parent nested d rest fs fs₁ acc m l₂ h
      · cases d with
        | true =>
          rw [flattenLoop_cons_dry fs parent nested _ acc hgl heq] at h ⊢
          exact flattenLoop_append_ok parent nested true rest fs fs₁ _ m l₂ h
        | false =>
          cases hre : fs.rename child (parent ++ [n]) with
          | none =>
            rw [flattenLoop_cons_fail parent nested rest acc hgl heq hre] at h
            cases h
          | some fs₂ =>
            rw [flattenLoop_cons_wet parent nested _ acc hgl heq hre] at h ⊢
            exact flattenLoop_append_ok parent nested false rest fs₂ fs₁ _ m l₂ h

/-- A dry run of the loop never changes the filesystem. -/
theorem flattenLoop_dry_fst (parent nested : Path) :
    ∀ (cs : List Path) (fs : FS) (acc : List MoveRecord),
      (flattenLoop fs parent nested cs true acc).1 = fs
  | [], fs, acc => rfl
  | child :: rest, fs, acc => by
    cases hgl : child.getLast? with
    | none => rw [flattenLoop_cons_none fs parent nested true rest acc hgl]
    | some n =>
      by_cases heq : parent ++ [n] = nested
      · rw [flattenLoop_cons_skip fs parent nested true rest acc hgl heq]
        exact flattenLoop_dry_fst parent nested rest fs acc
      · rw [flattenLoop_cons_dry fs parent nested rest acc hgl heq]
        exact flattenLoop_dry_fst parent nested rest fs _

/-- When the live run of the loop succeeds, a dry run from any state
produces exactly the same move records. -/
theorem flattenLoop_dry_of_wet (parent nested : Path) :
    ∀ (cs : List Path) (fs fs₂ : FS) (acc m : List MoveRecord),
      flattenLoop fs parent nested cs false acc = (fs₂, .ok m) →
      ∀ fs₀, flattenLoop fs₀ parent nested cs true acc = (fs₀, .ok m)
  | [], fs, fs₂, acc, m, h => by
    rw [flattenLoop_nil] at h
    cases h
    intro fs₀
    rfl
  | child :: rest, fs, fs₂, acc, m, h => by
    intro fs₀
    cases hgl : child.getLast? with
    | none =>
      rw [flattenLoop_cons_none fs parent nested false rest acc hgl] at h
      cases h
    | some n =>
      by_cases heq : parent ++ [n] = nested
      · rw [flattenLoop_cons_skip fs parent nested false rest acc hgl heq] at h
        rw [flattenLoop_cons_skip fs₀ parent nested true rest acc hgl heq]
        exact flattenLoop_dry_of_wet parent nested rest fs fs₂ acc m h fs₀
      · rw [flattenLoop_cons_dry fs₀ parent nested rest acc hgl heq]
        cases hre : fs.rename child (parent ++ [n]) with
        | none =>
          rw [flattenLoop_cons_fail parent nested rest acc hgl heq hre] at h
          cases h
        | some fs₃ =>
          rw [flattenLoop_cons_wet parent nested rest acc hgl heq hre] at h
          exact flattenLoop_dry_of_wet parent nested rest fs₃ fs₂ _ m h fs₀

/-- Running the live loop over children of `parent ++ [name]` named by
`names`: every rename succeeds, and the resulting state is characterized
completely (domain membership, kinds of relocated subtrees, and kinds of
untouched paths). -/
theorem flattenLoop_ok (parent : Path) (name : String) :
    ∀ (names : List String) (fs : FS) (acc : List MoveRecord),
      names.Nodup →
      name ∉ names →
      (∀ n ∈ names,
        fs.renameFails ((parent ++ [name]) ++ [n]) (parent ++ [n]) = false) →
      (∀ n ∈ names, (parent ++ [name]) ++ [n] ∈ fs.dom) →
      ∃ fs',
        flattenLoop fs parent (parent ++ [name])
            (names.map (fun n => (parent ++ [name]) ++ [n])) false acc =
          (fs', .ok (acc ++ names.map (fun n =>
            ⟨(parent ++ [name]) ++ [n], parent ++ [n]⟩))) ∧
        fs'.renameFails = fs.renameFails ∧
        (∀ q, q ∈ fs'.dom ↔
          ((∃ n ∈ names, ∃ r : Path, q = (parent ++ [n]) ++ r ∧
              ((parent ++ [name]) ++ [n]) ++ r ∈ fs.dom) ∨
           (q ∈ fs.dom ∧ ∀ n ∈ names,
              ((parent ++ [name]) ++ [n]).isPrefixOf q = false ∧
              (parent ++ [n]).isPrefixOf q = false))) ∧
        (∀ n ∈ names, ∀ r : Path,
          fs'.kind ((parent ++ [n]) ++ r) =
            fs.kind (((parent ++ [name]) ++ [n]) ++ r)) ∧
        (∀ q, (∀ n ∈ names, (parent ++ [n]).isPrefixOf q = false) →
          fs'.kind q = fs.kind q) := by
  intro names
  induction names with
  | nil =>
    intro fs acc _ _ _ _
    refine ⟨fs, by simp [flattenLoop_nil], rfl, ?_, ?_, ?_⟩
    · intro q; simp
    · intro n hn; exact absurd hn (List.not_mem_nil n)
    · intro q _; rfl
  | cons n₀ rest ih =>
    intro fs acc hnd hnm horacle hmem
    rw [List.nodup_cons] at hnd
    rw [List.mem_cons, not_or] at hnm
    have hne : n₀ ≠ name := fun h => hnm.1 h.symm
    -- the head rename succeeds
    have hre : fs.rename ((parent ++ [name]) ++ [n₀]) (parent ++ [n₀]) =
        some _ :=
      rename_succeeds (horacle n₀ (List.mem_cons_self _ _))
        (not_prefixOf_of_lt (by simp))
        (eq_false_of_iff snoc_prefixOf_append hne)
        (hmem n₀ (List.mem_cons_self _ _))
    set fs₁ := { fs with
      dom := fs.dom.filterMap (fun p =>
        if (parent ++ [n₀]).isPrefixOf p then none
        else if ((parent ++ [name]) ++ [n₀]).isPrefixOf p then
          some ((parent ++ [n₀]) ++ p.drop ((parent ++ [name]) ++ [n₀]).length)
        else some p),
      kind := fun q =>
        if (parent ++ [n₀]).isPrefixOf q then
          fs.kind (((parent ++ [name]) ++ [n₀]) ++ q.drop (parent ++ [n₀]).length)
        else fs.kind q } with hfs₁
    have hRF₁ : fs₁.renameFails = fs.renameFails := rename_renameFails_eq hre
    have hmem₁ := mem_rename_dom hre
    have hkind₁ := rename_kind_eq hre
    -- transfer the loop hypotheses across the head rename
    have hside : ∀ n ∈ rest, ∀ r : Path,
        (((parent ++ [name]) ++ [n]) ++ r ∈ fs₁.dom ↔
          ((parent ++ [name]) ++ [n]) ++ r ∈ fs.dom) ∧
        ((parent ++ [n₀]).isPrefixOf (((parent ++ [name]) ++ [n]) ++ r) = false) ∧
        (((parent ++ [name]) ++ [n₀]).isPrefixOf
            (((parent ++ [name]) ++ [n]) ++ r) = false) := by
      intro n hn r
      have hd1 : (parent ++ [n₀]).isPrefixOf
          (((parent ++ [name]) ++ [n]) ++ r) = false := by
        rw [List.append_assoc (parent ++ [name])]
        exact eq_false_of_iff snoc_prefixOf_append hne
      have hd2 : ((parent ++ [name]) ++ [n₀]).isPrefixOf
          (((parent ++ [name]) ++ [n]) ++ r) = false :=
        eq_false_of_iff snoc_prefixOf_append
          (fun h => hnd.1 (by rw [h]; exact hn))
      refine ⟨?_, hd1, hd2⟩
      rw [hmem₁]
      constructor
      · rintro (⟨h1, -⟩ | ⟨-, -, h3⟩)
        · rw [hd1] at h1; cases h1
        · exact h3
      · intro hq
        exact Or.inr ⟨hd1, hd2, hq⟩
    have horacle₁ : ∀ n ∈ rest,
        fs₁.renameFails ((parent ++ [name]) ++ [n]) (parent ++ [n]) = false := by
      intro n hn
      rw [hRF₁]
      exact horacle n (List.mem_cons_of_mem _ hn)
    have hmem₂ : ∀ n ∈ rest, (parent ++ [name]) ++ [n] ∈ fs₁.dom := by
      intro n hn
      have h := (hside n hn []).1
      rw [List.append_nil] at h
      exact h.2 (hmem n (List.mem_cons_of_mem _ hn))
    obtain ⟨fs', hloop, hRF', hdom', hkmoved', hkun'⟩ :=
      ih fs₁ (acc ++ [⟨(parent ++ [name]) ++ [n₀], parent ++ [n₀]⟩])
        hnd.2 hnm.2 horacle₁ hmem₂
    refine ⟨fs', ?_, ?_, ?_, ?_, ?_⟩
    · -- the run equation
      rw [List.map_cons]
      rw [flattenLoop_cons_wet parent (parent ++ [name]) _ acc
        (List.getLast?_concat _) (fun h => hne (snoc_eq_snoc_iff.mp h)) hre]
      rw [hloop]
      rw [List.map_cons, List.append_assoc]
      rfl
    · rw [hRF', hRF₁]
    · -- domain characterization
      intro q
      rw [hdom' q]
      constructor
      · rintro (⟨n, hn, r, rfl, hq⟩ | ⟨hq₁, hun⟩)
        · refine Or.inl ⟨n, List.mem_cons_of_mem _ hn, r, rfl, ?_⟩
          exact ((hside n hn r).1).1 hq
        · rw [hmem₁] at hq₁
          rcases hq₁ with ⟨h1, h2⟩ | ⟨h1, h2, h3⟩
          · obtain ⟨r, rfl⟩ := (prefixOf_iff _ _).1 h1
            rw [List.drop_left] at h2
            exact Or.inl ⟨n₀, List.mem_cons_self _ _, r, rfl, h2⟩
          · refine Or.inr ⟨h3, ?_⟩
            intro n hn
            rcases List.mem_cons.mp hn with rfl | hn'
            · exact ⟨h2, h1⟩
            · exact hun n hn'
      · rintro (⟨n, hn, r, rfl, hq⟩ | ⟨hq, hun⟩)
        · rcases List.mem_cons.mp hn with rfl | hn'
          · -- relocated by the head rename
            refine Or.inr ⟨?_, ?_⟩
            · rw [hmem₁]
              refine Or.inl ⟨prefixOf_append _ _, ?_⟩
              rw [List.drop_left]
              exact hq
            · intro m hm
              constructor
              · cases hb : ((parent ++ [name]) ++ [m]).isPrefixOf
                    ((parent ++ [n]) ++ r) with
                | false => rfl
                | true =>
                  have h2 : (parent ++ [name]).isPrefixOf
                      ((parent ++ [n]) ++ r) = true :=
                    prefixOf_trans (prefixOf_append _ _) hb
                  exact absurd (snoc_prefixOf_append.mp h2)
                    (fun h => hne h.symm)
              · exact eq_false_of_iff snoc_prefixOf_append
                  (fun h => hnd.1 (by rw [← h]; exact hm))
          · refine Or.inl ⟨n, hn', r, rfl, ?_⟩
            exact ((hside n hn' r).1).2 hq
        · refine Or.inr ⟨?_, fun n hn => hun n (List.mem_cons_of_mem _ hn)⟩
          rw [hmem₁]
          exact Or.inr ⟨(hun n₀ (List.mem_cons_self _ _)).2,
            (hun n₀ (List.mem_cons_self _ _)).1, hq⟩
    · -- kinds of relocated subtrees
      intro n hn r
      rcases List.mem_cons.mp hn with rfl | hn'
      · have hu : fs'.kind ((parent ++ [n]) ++ r) =
            fs₁.kind ((parent ++ [n]) ++ r) := by
          apply hkun'
          intro m hm
          exact eq_false_of_iff snoc_prefixOf_append
            (fun h => hnd.1 (by rw [← h]; exact hm))
        rw [hu, hkind₁, if_pos (by exact prefixOf_append _ _), List.drop_left]
      · rw [hkmoved' n hn' r, hkind₁,
          if_neg (by rw [(hside n hn' r).2.1]; exact Bool.noConfusion)]
    · -- kinds of untouched paths
      intro q hq
      rw [hkun' q (fun n hn => hq n (List.mem_cons_of_mem _ hn)), hkind₁,
        if_neg (by rw [hq n₀ (List.mem_cons_self _ _)]; exact Bool.noConfusion)]

theorem mem_filter_ne {m nm : String} {l : List String} :
    m ∈ l.filter (fun n => n ≠ nm) ↔ m ∈ l ∧ m ≠ nm := by
  simp [List.mem_filter]

/-- Generalization of `flattenLoop_ok` to child lists that may contain the
nested directory's own name: such a child's destination is the nested
directory itself, so the loop skips it — it is neither renamed nor
recorded.  The run is characterized over the non-skipped names. -/
theorem flattenLoop_run (parent : Path) (name : String) :
    ∀ (names : List String) (fs : FS) (acc : List MoveRecord),
      names.Nodup →
      (∀ n ∈ names, n ≠ name →
        fs.renameFails ((parent ++ [name]) ++ [n]) (parent ++ [n]) = false) →
      (∀ n ∈ names, (parent ++ [name]) ++ [n] ∈ fs.dom) →
      ∃ fs',
        flattenLoop fs parent (parent ++ [name])
            (names.map (fun n => (parent ++ [name]) ++ [n])) false acc =
          (fs', .ok (acc ++ (names.filter (fun n => n ≠ name)).map (fun n =>
            ⟨(parent ++ [name]) ++ [n], parent ++ [n]⟩))) ∧
        fs'.renameFails = fs.renameFails ∧
        (∀ q, q ∈ fs'.dom ↔
          ((∃ n ∈ names.filter (fun n => n ≠ name), ∃ r : Path,
              q = (parent ++ [n]) ++ r ∧
              ((parent ++ [name]) ++ [n]) ++ r ∈ fs.dom) ∨
           (q ∈ fs.dom ∧ ∀ n ∈ names.filter (fun n => n ≠ name),
              ((parent ++ [name]) ++ [n]).isPrefixOf q = false ∧
              (parent ++ [n]).isPrefixOf q = false))) ∧
        (∀ n ∈ names.filter (fun n => n ≠ name), ∀ r : Path,
          fs'.kind ((parent ++ [n]) ++ r) =
            fs.kind (((parent ++ [name]) ++ [n]) ++ r)) ∧
        (∀ q, (∀ n ∈ names.filter (fun n => n ≠ name),
            (parent ++ [n]).isPrefixOf q = false) →
          fs'.kind q = fs.kind q) := by
  intro names
  induction names with
  | nil =>
    intro fs acc _ _ _
    refine ⟨fs, by simp [flattenLoop_nil], rfl, ?_, ?_, ?_⟩
    · intro q; simp
    · intro n hn; simp at hn
    · intro q _; rfl
  | cons n₀ rest ih =>
    intro fs acc hnd horacle hmem
    rw [List.nodup_cons] at hnd
    by_cases hne' : n₀ = name
    · -- the head child is the nested directory's own name: it is skipped
      subst hne'
      obtain ⟨fs', hloop, hRF', hdom', hkmoved', hkun'⟩ :=
        ih fs acc hnd.2
          (fun n hn hnn => horacle n (List.mem_cons_of_mem _ hn) hnn)
          (fun n hn => hmem n (List.mem_cons_of_mem _ hn))
      have hfc : (n₀ :: rest).filter (fun n => n ≠ n₀) =
          rest.filter (fun n => n ≠ n₀) := by simp
      refine ⟨fs', ?_, hRF', ?_, ?_, ?_⟩
      · rw [List.map_cons,
          flattenLoop_cons_skip fs parent (parent ++ [n₀]) false _ acc
            (List.getLast?_concat _) rfl,
          hloop, hfc]
      · rw [hfc]; exact hdom'
      · rw [hfc]; exact hkmoved'
      · rw [hfc]; exact hkun'
    · -- ordinary child: the head rename succeeds
      have hne : n₀ ≠ name := hne'
      have hre : fs.rename ((parent ++ [name]) ++ [n₀]) (parent ++ [n₀]) =
          some _ :=
        rename_succeeds (horacle n₀ (List.mem_cons_self _ _) hne)
          (not_prefixOf_of_lt (by simp))
          (eq_false_of_iff snoc_prefixOf_append hne)
          (hmem n₀ (List.mem_cons_self _ _))
      set fs₁ := { fs with
        dom := fs.dom.filterMap (fun p =>
          if (parent ++ [n₀]).isPrefixOf p then none
          else if ((parent ++ [name]) ++ [n₀]).isPrefixOf p then
            some ((parent ++ [n₀]) ++ p.drop ((parent ++ [name]) ++ [n₀]).length)
          else some p),
        kind := fun q =>
          if (parent ++ [n₀]).isPrefixOf q then
            fs.kind (((parent ++ [name]) ++ [n₀]) ++ q.drop (parent ++ [n₀]).length)
          else fs.kind q } with hfs₁
      have hRF₁ : fs₁.renameFails = fs.renameFails := rename_renameFails_eq hre
      have hmem₁ := mem_rename_dom hre
      have hkind₁ := rename_kind_eq hre
      have hside : ∀ n ∈ rest, ∀ r : Path,
          (((parent ++ [name]) ++ [n]) ++ r ∈ fs₁.dom ↔
            ((parent ++ [name]) ++ [n]) ++ r ∈ fs.dom) ∧
          ((parent ++ [n₀]).isPrefixOf
            (((parent ++ [name]) ++ [n]) ++ r) = false) ∧
          (((parent ++ [name]) ++ [n₀]).isPrefixOf
              (((parent ++ [name]) ++ [n]) ++ r) = false) := by
        intro n hn r
        have hd1 : (parent ++ [n₀]).isPrefixOf
            (((parent ++ [name]) ++ [n]) ++ r) = false := by
          rw [List.append_assoc (parent ++ [name])]
          exact eq_false_of_iff snoc_prefixOf_append hne
        have hd2 : ((parent ++ [name]) ++ [n₀]).isPrefixOf
            (((parent ++ [name]) ++ [n]) ++ r) = false :=
          eq_false_of_iff snoc_prefixOf_append
            (fun h => hnd.1 (by rw [h]; exact hn))
        refine ⟨?_, hd1, hd2⟩
        rw [hmem₁]
        constructor
        · rintro (⟨h1, -⟩ | ⟨-, -, h3⟩)
          · rw [hd1] at h1; cases h1
          · exact h3
        · intro hq
          exact Or.inr ⟨hd1, hd2, hq⟩
      have horacle₁ : ∀ n ∈ rest, n ≠ name →
          fs₁.renameFails ((parent ++ [name]) ++ [n]) (parent ++ [n]) = false := by
        intro n hn hnn
        rw [hRF₁]
        exact horacle n (List.mem_cons_of_mem _ hn) hnn
      have hmem₂ : ∀ n ∈ rest, (parent ++ [name]) ++ [n] ∈ fs₁.dom := by
        intro n hn
        have h := (hside n hn []).1
        rw [List.append_nil] at h
        exact h.2 (hmem n (List.mem_cons_of_mem _ hn))
      obtain ⟨fs', hloop, hRF', hdom', hkmoved', hkun'⟩ :=
        ih fs₁ (acc ++ [⟨(parent ++ [name]) ++ [n₀], parent ++ [n₀]⟩])
          hnd.2 horacle₁ hmem₂
      have hfc : (n₀ :: rest).filter (fun n => n ≠ name) =
          n₀ :: rest.filter (fun n => n ≠ name) := by simp [hne']
      refine ⟨fs', ?_, ?_, ?_, ?_, ?_⟩
      · -- the run equation
        rw [List.map_cons,
          flattenLoop_cons_wet parent (parent ++ [name]) _ acc
            (List.getLast?_concat _) (fun h => hne (snoc_eq_snoc_iff.mp h)) hre,
          hloop, hfc, List.map_cons, List.append_assoc]
        rfl
      · rw [hRF', hRF₁]
      · -- domain characterization
        intro q
        rw [hdom' q, hfc]
        constructor
        · rintro (⟨n, hn, r, rfl, hq⟩ | ⟨hq₁, hun⟩)
          · refine Or.inl ⟨n, List.mem_cons_of_mem _ hn, r, rfl, ?_⟩
            exact ((hside n (mem_filter_ne.mp hn).1 r).1).1 hq
          · rw [hmem₁] at hq₁
            rcases hq₁ with ⟨h1, h2⟩ | ⟨h1, h2, h3⟩
            · obtain ⟨r, rfl⟩ := (prefixOf_iff _ _).1 h1
              rw [List.drop_left] at h2
              exact Or.inl ⟨n₀, List.mem_cons_self _ _, r, rfl, h2⟩
            · refine Or.inr ⟨h3, ?_⟩
              intro n hn
              rcases List.mem_cons.mp hn with rfl | hn'
              · exact ⟨h2, h1⟩
              · exact hun n hn'
        · rintro (⟨n, hn, r, rfl, hq⟩ | ⟨hq, hun⟩)
          · rcases List.mem_cons.mp hn with rfl | hn'
            · refine Or.inr ⟨?_, ?_⟩
              · rw [hmem₁]
                refine Or.inl ⟨prefixOf_append _ _, ?_⟩
                rw [List.drop_left]
                exact hq
              · intro m hm
                constructor
                · cases hb : ((parent ++ [name]) ++ [m]).isPrefixOf
                      ((parent ++ [n]) ++ r) with
                  | false => rfl
                  | true =>
                    have h2 : (parent ++ [name]).isPrefixOf
                        ((parent ++ [n]) ++ r) = true :=
                      prefixOf_trans (prefixOf_append _ _) hb
                    exact absurd (snoc_prefixOf_append.mp h2)
                      (fun h => hne h.symm)
                · exact eq_false_of_iff snoc_prefixOf_append
                    (fun h => hnd.1
                      (by rw [← h]; exact (mem_filter_ne.mp hm).1))
            · refine Or.inl ⟨n, hn', r, rfl, ?_⟩
              exact ((hside n (mem_filter_ne.mp hn').1 r).1).2 hq
          · refine Or.inr ⟨?_, fun n hn => hun n (List.mem_cons_of_mem _ hn)⟩
            rw [hmem₁]
            exact Or.inr ⟨(hun n₀ (List.mem_cons_self _ _)).2,
              (hun n₀ (List.mem_cons_self _ _)).1, hq⟩
      · -- kinds of relocated subtrees
        intro n hn r
        rw [hfc] at hn
        rcases List.mem_cons.mp hn with rfl | hn'
        · have hu : fs'.kind ((parent ++ [n]) ++ r) =
              fs₁.kind ((parent ++ [n]) ++ r) := by
            apply hkun'
            intro m hm
            exact eq_false_of_iff snoc_prefixOf_append
              (fun h => hnd.1 (by rw [← h]; exact (mem_filter_ne.mp hm).1))
          rw [hu, hkind₁, if_pos (by exact prefixOf_append _ _), List.drop_left]
        · rw [hkmoved' n hn' r, hkind₁,
            if_neg (by
              rw [(hside n (mem_filter_ne.mp hn').1 r).2.1]
              exact Bool.noConfusion)]
      · -- kinds of untouched paths
        intro q hq
        rw [hfc] at hq
        rw [hkun' q (fun n hn => hq n (List.mem_cons_of_mem _ hn)), hkind₁,
          if_neg (by rw [hq n₀ (List.mem_cons_self _ _)]; exact Bool.noConfusion)]

/-! ## Scan and flatten unfolding helpers -/

/-- On a snapshot-shaped candidate the scan finds no collision exactly when
no child's destination name (other than the nested directory itself) is
already occupied in the parent. -/
theorem collisions_eq_nil_iff {fs : FS} {c : NestingCandidate} {names : List String}
    (h3 : c.children = names.map (fun n => c.nested ++ [n])) :
    ((scan fs c).collisions = [] ↔
      ∀ n ∈ names, c.parent ++ [n] = c.nested ∨ (c.parent ++ [n]) ∉ fs.dom) := by
  show detect_collisions fs c = [] ↔ _
  unfold detect_collisions
  rw [h3, List.filterMap_map, List.filterMap_eq_nil_iff]
  refine ⟨fun h n hn => ?_, fun h n hn => ?_⟩
  · have h2 := h n hn
    simp only [Function.comp, List.getLast?_concat] at h2
    split_ifs at h2 with hc1 hc2
    · exact Or.inl hc1
    · exact Or.inr hc2
  · simp only [Function.comp, List.getLast?_concat]
    split_ifs with hc1 hc2
    · rfl
    · rcases h n hn with hl | hr
      · exact absurd hl hc1
      · exact absurd hr (fun hmem => hmem hc2)
    · rfl

theorem flatten_collision {fs : FS} {c : NestingCandidate} {d : Bool}
    {col : Collision} {tail : List Collision}
    (h : (scan fs c).collisions = col :: tail) :
    flatten fs c d = (fs, .error (.collision col.existing)) := by
  unfold flatten
  rw [h]

theorem flatten_nil_err {fs fs' : FS} {c : NestingCandidate} {d : Bool} {e : Error}
    (hcol : (scan fs c).collisions = [])
    (hl : flattenLoop fs c.parent c.nested c.children d [] = (fs', .error e)) :
    flatten fs c d = (fs', .error e) := by
  unfold flatten
  rw [hcol, hl]

theorem flatten_ok_dry {fs fs' : FS} {c : NestingCandidate} {m : List MoveRecord}
    (hcol : (scan fs c).collisions = [])
    (hl : flattenLoop fs c.parent c.nested c.children true [] = (fs', .ok m)) :
    flatten fs c true = (fs', .ok ⟨m⟩) := by
  unfold flatten
  rw [hcol, hl]
  rfl

theorem flatten_ok_wet {fs fs' fs'' : FS} {c : NestingCandidate} {m : List MoveRecord}
    (hcol : (scan fs c).collisions = [])
    (hl : flattenLoop fs c.parent c.nested c.children false [] = (fs', .ok m))
    (hrm : fs'.removeDir c.nested = some fs'') :
    flatten fs c false = (fs'', .ok ⟨m⟩) := by
  unfold flatten
  rw [hcol, hl]
  simp [hrm]

theorem flatten_wet_removeFail {fs fs' : FS} {c : NestingCandidate}
    {m : List MoveRecord}
    (hcol : (scan fs c).collisions = [])
    (hl : flattenLoop fs c.parent c.nested c.children false [] = (fs', .ok m))
    (hrm : fs'.removeDir c.nested = none) :
    flatten fs c false = (fs', .error (.io c.nested)) := by
  unfold flatten
  rw [hcol, hl]
  simp [hrm]

theorem removeDir_some {fs : FS} {p : Path} (h1 : fs.isDir p)
    (h2 : ∀ q ∈ fs.dom, q = p ∨ p.isPrefixOf q = false) :
    fs.removeDir p = some { fs with dom := fs.dom.filter (fun q => q ≠ p) } := by
  unfold FS.removeDir
  rw [if_pos ⟨h1, h2⟩]

/-- A live flatten of a collision-free snapshot candidate none of whose
children carries the nested directory's own name: it succeeds, the nested
directory and its whole subtree are gone, every child now lives at its
parent-level destination with its kind preserved, and one move record is
produced per child. -/
theorem flatten_apply_ok (fs : FS) (c : NestingCandidate) (name : String)
    (names : List String)
    (h1 : c.nested = c.parent ++ [name])
    (h2 : c.nested ∈ fs.dom)
    (h2k : fs.kind c.nested = .dir)
    (h3 : c.children = names.map (fun n => c.nested ++ [n]))
    (h4 : names.Nodup)
    (h5 : ∀ n ∈ names, c.nested ++ [n] ∈ fs.dom)
    (h7 : name ∉ names)
    (h8 : (scan fs c).collisions = [])
    (h9 : ∀ s d, fs.renameFails s d = false)
    (hd : ∀ q ∈ fs.dom, c.nested.isPrefixOf q = true → q ≠ c.nested →
      ∃ n ∈ names, (c.nested ++ [n]).isPrefixOf q = true) :
    ∃ (fsF : FS) (res : MoveResult),
      flatten fs c false = (fsF, .ok res) ∧
      res.moved = names.map (fun n => ⟨c.nested ++ [n], c.parent ++ [n]⟩) ∧
      res.moved.length = c.children.length ∧
      ¬ fsF.pathExists c.nested ∧
      (∀ q ∈ fsF.dom, c.nested.isPrefixOf q = false) ∧
      (∀ n ∈ names, (c.parent ++ [n]) ∈ fsF.dom ∧
        fsF.kind (c.parent ++ [n]) = fs.kind (c.nested ++ [n])) := by
  obtain ⟨parent, nested, children⟩ := c
  dsimp only at h1 h2 h2k h3 h5 h8 hd ⊢
  subst h1
  subst h3
  obtain ⟨fs', hloop, hRF', hdom', hkmoved', hkun'⟩ :=
    flattenLoop_ok parent name names fs [] h4 h7 (fun n _ => h9 _ _) h5
  rw [List.nil_append] at hloop
  have hunN : ∀ n ∈ names,
      ((parent ++ [name]) ++ [n]).isPrefixOf (parent ++ [name]) = false ∧
      (parent ++ [n]).isPrefixOf (parent ++ [name]) = false := by
    intro n hn
    exact ⟨not_prefixOf_of_lt (by simp),
      eq_false_of_iff snoc_prefixOf_snoc (fun h => h7 (h ▸ hn))⟩
  have hmemN : parent ++ [name] ∈ fs'.dom :=
    (hdom' _).2 (Or.inr ⟨h2, hunN⟩)
  have hkindN : fs'.kind (parent ++ [name]) = .dir := by
    rw [hkun' _ (fun n hn => (hunN n hn).2)]
    exact h2k
  have hempty : ∀ q ∈ fs'.dom, q = parent ++ [name] ∨
      (parent ++ [name]).isPrefixOf q = false := by
    intro q hq
    rcases (hdom' q).1 hq with ⟨n, hn, r, rfl, -⟩ | ⟨hqfs, hun⟩
    · exact Or.inr
        (eq_false_of_iff snoc_prefixOf_append (fun h => h7 (h.symm ▸ hn)))
    · by_cases hqe : q = parent ++ [name]
      · exact Or.inl hqe
      · right
        cases hb : (parent ++ [name]).isPrefixOf q with
        | false => rfl
        | true =>
          obtain ⟨n, hn, hpre⟩ := hd q hqfs hb hqe
          rw [(hun n hn).1] at hpre
          exact Bool.noConfusion hpre
  have hrm := @removeDir_some fs' (parent ++ [name]) ⟨hmemN, hkindN⟩ hempty
  refine ⟨_, ⟨names.map (fun n => ⟨(parent ++ [name]) ++ [n], parent ++ [n]⟩)⟩,
    flatten_ok_wet h8 hloop hrm, rfl, by simp, ?_, ?_, ?_⟩
  · -- the nested directory no longer exists
    show ¬ ((parent ++ [name]) ∈ List.filter _ fs'.dom)
    simp [List.mem_filter]
  · -- nothing remains anywhere below the nested directory
    intro q hq
    rw [List.mem_filter] at hq
    obtain ⟨hq', hne⟩ := hq
    rw [decide_eq_true_eq] at hne
    rcases hempty q hq' with rfl | hb
    · exact absurd rfl hne
    · exact hb
  · -- every child now lives at its parent-level destination
    intro n hn
    constructor
    · rw [List.mem_filter, decide_eq_true_eq]
      refine ⟨(hdom' _).2 (Or.inl ⟨n, hn, [], (List.append_nil _).symm, ?_⟩), ?_⟩
      · rw [List.append_nil]
        exact h5 n hn
      · exact fun h => h7 ((snoc_eq_snoc_iff.mp h) ▸ hn)
    · show fs'.kind _ = _
      have h := hkmoved' n hn []
      rwa [List.append_nil, List.append_nil] at h

theorem rename_fails_oracle {fs : FS} {src dest : Path}
    (h : fs.renameFails src dest = true) : fs.rename src dest = none := by
  unfold FS.rename
  rw [if_pos h]

/-- A live flatten in which the environment refuses the rename of child `k`
(a child that is actually renamed, so `k` differs from the nested
directory's own name) after the children in `done` were processed: the
whole operation aborts with an `Io` error naming that child, the
already-moved children stay at their new parent-level paths, a self-named
child among `done` was merely skipped and is untouched, the not-yet
processed children stay in place with their destinations still free, and
the nested directory is not removed. -/
theorem flatten_apply_fail (fs : FS) (c : NestingCandidate) (name k : String)
    (done rest : List String)
    (h1 : c.nested = c.parent ++ [name])
    (h2 : c.nested ∈ fs.dom)
    (h2k : fs.kind c.nested = .dir)
    (h3 : c.children = (done ++ k :: rest).map (fun n => c.nested ++ [n]))
    (h4 : (done ++ k :: rest).Nodup)
    (h5 : ∀ n ∈ done ++ k :: rest, c.nested ++ [n] ∈ fs.dom)
    (hk : k ≠ name)
    (h8 : (scan fs c).collisions = [])
    (h9a : ∀ n ∈ done, n ≠ name →
      fs.renameFails (c.nested ++ [n]) (c.parent ++ [n]) = false)
    (h9b : fs.renameFails (c.nested ++ [k]) (c.parent ++ [k]) = true) :
    ∃ fs',
      flatten fs c false = (fs', .error (.io (c.nested ++ [k]))) ∧
      (∀ n ∈ done, n ≠ name →
        (c.parent ++ [n]) ∈ fs'.dom ∧ (c.nested ++ [n]) ∉ fs'.dom) ∧
      (∀ n ∈ done, n = name → (c.nested ++ [n]) ∈ fs'.dom) ∧
      (∀ n ∈ k :: rest, (c.nested ++ [n]) ∈ fs'.dom ∧
        (n ≠ name → (c.parent ++ [n]) ∉ fs'.dom)) ∧
      c.nested ∈ fs'.dom ∧ fs'.kind c.nested = .dir := by
  obtain ⟨parent, nested, children⟩ := c
  dsimp only at h1 h2 h2k h3 h5 h8 h9a h9b ⊢
  subst h1
  subst h3
  rw [List.nodup_append] at h4
  have hfree : ∀ n ∈ done ++ k :: rest, n ≠ name →
      (parent ++ [n]) ∉ fs.dom := by
    intro n hn hnn
    rcases (collisions_eq_nil_iff rfl).1 h8 n hn with heq | hnm
    · exact absurd (snoc_eq_snoc_iff.mp heq) hnn
    · exact hnm
  obtain ⟨fs', hloopD, hRF', hdom', hkmoved', hkun'⟩ :=
    flattenLoop_run parent name done fs [] h4.1
      (fun n hn hnn => h9a n hn hnn)
      (fun n hn => h5 n (List.mem_append_left _ hn))
  rw [List.nil_append] at hloopD
  have hchain : flattenLoop fs parent (parent ++ [name])
      ((done ++ k :: rest).map (fun n => (parent ++ [name]) ++ [n])) false [] =
      (fs', .error (.io ((parent ++ [name]) ++ [k]))) := by
    rw [List.map_append,
      flattenLoop_append_ok parent (parent ++ [name]) false _ fs fs' [] _ _
        hloopD,
      List.map_cons]
    refine flattenLoop_cons_fail parent (parent ++ [name]) _ _
      (List.getLast?_concat _)
      (fun h => hk (snoc_eq_snoc_iff.mp h))
      (rename_fails_oracle ?_)
    rw [hRF']
    exact h9b
  refine ⟨fs', flatten_nil_err h8 hchain, ?_, ?_, ?_, ?_, ?_⟩
  · -- moved children stay moved
    intro n hn hnn
    have hnF : n ∈ done.filter (fun m => m ≠ name) :=
      mem_filter_ne.mpr ⟨hn, hnn⟩
    constructor
    · refine (hdom' _).2 (Or.inl ⟨n, hnF, [], (List.append_nil _).symm, ?_⟩)
      rw [List.append_nil]
      exact h5 n (List.mem_append_left _ hn)
    · intro hmem
      rcases (hdom' _).1 hmem with ⟨m, hm, r, heq, -⟩ | ⟨-, hun⟩
      · rw [List.append_assoc, List.append_assoc] at heq
        have h := List.append_cancel_left heq
        simp only [List.singleton_append] at h
        injection h with h h'
        exact absurd h.symm (mem_filter_ne.mp hm).2
      · have h := (hun n hnF).1
        rw [prefixOf_refl] at h
        exact Bool.noConfusion h
  · -- a self-named child among the processed ones was skipped, not moved
    intro n hn hnn
    subst hnn
    refine (hdom' _).2 (Or.inr ⟨h5 n (List.mem_append_left _ hn), ?_⟩)
    intro m hm
    refine ⟨eq_false_of_iff snoc_prefixOf_snoc
      (fun h => (mem_filter_ne.mp hm).2 h), ?_⟩
    exact eq_false_of_iff snoc_prefixOf_append
      (fun h => (mem_filter_ne.mp hm).2 h)
  · -- unprocessed children are untouched and their destinations free
    intro n hn
    have hnin : n ∉ done := by
      intro hcon
      rcases List.mem_cons.mp hn with rfl | hn'
      · exact (h4.2.2 hcon) (List.mem_cons_self _ _)
      · exact (h4.2.2 hcon) (List.mem_cons_of_mem _ hn')
    constructor
    · refine (hdom' _).2 (Or.inr ⟨h5 n (List.mem_append_right _ hn), ?_⟩)
      intro m hm
      refine ⟨eq_false_of_iff snoc_prefixOf_snoc
        (fun h => hnin (h.symm ▸ (mem_filter_ne.mp hm).1)), ?_⟩
      exact eq_false_of_iff snoc_prefixOf_append
        (fun h => (mem_filter_ne.mp hm).2 h)
    · intro hnn hmem
      rcases (hdom' _).1 hmem with ⟨m, hm, r, heq, -⟩ | ⟨hqfs, -⟩
      · rw [List.append_assoc] at heq
        have h := List.append_cancel_left heq
        simp only [List.singleton_append] at h
        injection h with h h'
        exact absurd (h ▸ (mem_filter_ne.mp hm).1) hnin
      · exact hfree n (List.mem_append_right _ hn) hnn hqfs
  · -- the nested directory itself is untouched
    refine (hdom' _).2 (Or.inr ⟨h2, ?_⟩)
    intro m hm
    exact ⟨not_prefixOf_of_lt (by simp),
      eq_false_of_iff snoc_prefixOf_snoc
        (fun h => (mem_filter_ne.mp hm).2 h)⟩
  · rw [hkun' _ ?_]
    · exact h2k
    · intro m hm
      exact eq_false_of_iff snoc_prefixOf_snoc
        (fun h => (mem_filter_ne.mp hm).2 h)

/-! ## Rollback lemmas -/

theorem rollbackLoop_nil (fs : FS) (c : Nat) :
    rollbackLoop fs [] c = (fs, .ok c) := rfl

theorem rollbackLoop_cons_skip {fs : FS} {r : MoveRecord} {rest : List MoveRecord}
    {c : Nat} (h : ¬ fs.pathExists r.«to») :
    rollbackLoop fs (r :: rest) c = rollbackLoop fs rest c := by
  rw [rollbackLoop, if_neg h]

theorem rollbackLoop_cons_ren {fs fs₁ : FS} {r : MoveRecord}
    {rest : List MoveRecord} {c : Nat} (h : fs.pathExists r.«to»)
    (hre : fs.rename r.«to» r.«from» = some fs₁) :
    rollbackLoop fs (r :: rest) c = rollbackLoop fs₁ rest (c + 1) := by
  rw [rollbackLoop, if_pos h, hre]

theorem rollbackLoop_cons_fail {fs : FS} {r : MoveRecord}
    {rest : List MoveRecord} {c : Nat} (h : fs.pathExists r.«to»)
    (hre : fs.rename r.«to» r.«from» = none) :
    rollbackLoop fs (r :: rest) c = (fs, .error (.io r.«to»)) := by
  rw [rollbackLoop, if_pos h, hre]

theorem rollbackLoop_append_ok :
    ∀ (l₁ : List MoveRecord) (fs fs₁ : FS) (c c₁ : Nat)
      (l₂ : List MoveRecord),
      rollbackLoop fs l₁ c = (fs₁, .ok c₁) →
      rollbackLoop fs (l₁ ++ l₂) c = rollbackLoop fs₁ l₂ c₁
  | [], fs, fs₁, c, c₁, l₂, h => by
    rw [rollbackLoop_nil] at h
    cases h
    rw [List.nil_append]
  | r :: rest, fs, fs₁, c, c₁, l₂, h => by
    rw [List.cons_append]
    by_cases hex : fs.pathExists r.«to»
    · cases hre : fs.rename r.«to» r.«from» with
      | none =>
        rw [rollbackLoop_cons_fail hex hre] at h
        cases h
      | some fs₂ =>
        rw [rollbackLoop_cons_ren hex hre] at h ⊢
        exact rollbackLoop_append_ok rest fs₂ fs₁ (c + 1) c₁ l₂ h
    · rw [rollbackLoop_cons_skip hex] at h ⊢
      exact rollbackLoop_append_ok rest fs fs₁ c c₁ l₂ h

theorem rollbackLoop_count_le :
    ∀ (l : List MoveRecord) (fs fs' : FS) (c k : Nat),
      rollbackLoop fs l c = (fs', .ok k) → k ≤ c + l.length
  | [], fs, fs', c, k, h => by
    rw [rollbackLoop_nil] at h
    cases h
    simp
  | r :: rest, fs, fs', c, k, h => by
    by_cases hex : fs.pathExists r.«to»
    · cases hre : fs.rename r.«to» r.«from» with
      | none =>
        rw [rollbackLoop_cons_fail hex hre] at h
        cases h
      | some fs₂ =>
        rw [rollbackLoop_cons_ren hex hre] at h
        have := rollbackLoop_count_le rest fs₂ fs' (c + 1) k h
        simp only [List.length_cons]
        omega
    · rw [rollbackLoop_cons_skip hex] at h
      have := rollbackLoop_count_le rest fs fs' c k h
      simp only [List.length_cons]
      omega

theorem rollbackLoop_preserves_absent {q : Path} :
    ∀ (l : List MoveRecord) (fs fs' : FS) (c k : Nat),
      q ∉ fs.dom → (∀ e ∈ l, (e.«from»).isPrefixOf q = false) →
      rollbackLoop fs l c = (fs', .ok k) → q ∉ fs'.dom
  | [], fs, fs', c, k, hq, _, h => by
    rw [rollbackLoop_nil] at h
    cases h
    exact hq
  | r :: rest, fs, fs', c, k, hq, hsep, h => by
    by_cases hex : fs.pathExists r.«to»
    · cases hre : fs.rename r.«to» r.«from» with
      | none =>
        rw [rollbackLoop_cons_fail hex hre] at h
        cases h
      | some fs₂ =>
        rw [rollbackLoop_cons_ren hex hre] at h
        refine rollbackLoop_preserves_absent rest fs₂ fs' (c + 1) k ?_
          (fun e he => hsep e (List.mem_cons_of_mem _ he)) h
        intro hmem
        rcases (mem_rename_dom hre q).1 hmem with ⟨h1, -⟩ | ⟨-, -, h3⟩
        · rw [hsep r (List.mem_cons_self _ _)] at h1
          exact Bool.noConfusion h1
        · exact hq h3
    · rw [rollbackLoop_cons_skip hex] at h
      exact rollbackLoop_preserves_absent rest fs fs' c k hq
        (fun e he => hsep e (List.mem_cons_of_mem _ he)) h

/-- A run that incremented the counter for every entry has renamed every
recorded destination away. -/
theorem rollbackLoop_full :
    ∀ (l : List MoveRecord) (fs fs' : FS) (c : Nat),
      (∀ e ∈ l, ∀ e' ∈ l, (e.«from»).isPrefixOf e'.«to» = false) →
      rollbackLoop fs l c = (fs', .ok (c + l.length)) →
      ∀ e ∈ l, e.«to» ∉ fs'.dom
  | [], fs, fs', c, _, h, e, he => absurd he (List.not_mem_nil e)
  | r :: rest, fs, fs', c, hsep, h, e, he => by
    by_cases hex : fs.pathExists r.«to»
    · cases hre : fs.rename r.«to» r.«from» with
      | none =>
        rw [rollbackLoop_cons_fail hex hre] at h
        cases h
      | some fs₂ =>
        rw [rollbackLoop_cons_ren hex hre] at h
        rw [show c + (r :: rest).length = (c + 1) + rest.length by
          simp only [List.length_cons]; omega] at h
        have habs : r.«to» ∉ fs₂.dom := by
          intro hmem
          rcases (mem_rename_dom hre r.«to»).1 hmem with ⟨h1, -⟩ | ⟨-, h2, -⟩
          · rw [hsep r (List.mem_cons_self _ _) r (List.mem_cons_self _ _)] at h1
            exact Bool.noConfusion h1
          · rw [prefixOf_refl] at h2
            exact Bool.noConfusion h2
        rcases List.mem_cons.mp he with rfl | he'
        · exact rollbackLoop_preserves_absent rest fs₂ fs' (c + 1) _ habs
            (fun e' he' => hsep e' (List.mem_cons_of_mem _ he')
              e (List.mem_cons_self _ _)) h
        · exact rollbackLoop_full rest fs₂ fs' (c + 1)
            (fun a ha b hb => hsep a (List.mem_cons_of_mem _ ha)
              b (List.mem_cons_of_mem _ hb)) h e he'
    · rw [rollbackLoop_cons_skip hex] at h
      have hle := rollbackLoop_count_le rest fs fs' c _ h
      simp only [List.length_cons] at hle
      omega

/-- When no recorded destination exists, the whole walk is a silent no-op. -/
theorem rollbackLoop_all_absent :
    ∀ (l : List MoveRecord) (fs : FS) (c : Nat),
      (∀ e ∈ l, e.«to» ∉ fs.dom) →
      rollbackLoop fs l c = (fs, .ok c)
  | [], fs, c, _ => rfl
  | r :: rest, fs, c, h => by
    rw [rollbackLoop_cons_skip (h r (List.mem_cons_self _ _))]
    exact rollbackLoop_all_absent rest fs c
      (fun e he => h e (List.mem_cons_of_mem _ he))

/-! ## Detector lemmas -/

theorem pathLe_cons {a b : String} {as bs : Path} :
    pathLe (a :: as) (b :: bs) =
      (if a < b then true else if b < a then false else pathLe as bs) := rfl

theorem pathLe_total : ∀ p q : Path, pathLe p q = true ∨ pathLe q p = true
  | [], _ => Or.inl rfl
  | _ :: _, [] => Or.inr rfl
  | a :: as, b :: bs => by
    rcases lt_trichotomy a b with h | h | h
    · exact Or.inl (by rw [pathLe_cons, if_pos h])
    · subst h
      rcases pathLe_total as bs with h' | h'
      · exact Or.inl (by
          rw [pathLe_cons, if_neg (lt_irrefl a), if_neg (lt_irrefl a)]
          exact h')
      · exact Or.inr (by
          rw [pathLe_cons, if_neg (lt_irrefl a), if_neg (lt_irrefl a)]
          exact h')
    · exact Or.inr (by rw [pathLe_cons, if_pos h])

theorem pathLe_trans :
    ∀ p q r : Path, pathLe p q = true → pathLe q r = true → pathLe p r = true
  | [], _, _, _, _ => rfl
  | _ :: _, [], _, h, _ => Bool.noConfusion h
  | _ :: _, _ :: _, [], _, h => Bool.noConfusion h
  | a :: as, b :: bs, c :: cs, h1, h2 => by
    rw [pathLe_cons] at h1 h2 ⊢
    rcases lt_trichotomy a b with hab | hab | hab
    · rcases lt_trichotomy b c with hbc | hbc | hbc
      · rw [if_pos (lt_trans hab hbc)]
      · subst hbc
        rw [if_pos hab]
      · rw [if_neg (lt_asymm hbc), if_pos hbc] at h2
        exact Bool.noConfusion h2
    · subst hab
      rw [if_neg (lt_irrefl a), if_neg (lt_irrefl a)] at h1
      rcases lt_trichotomy a c with hac | hac | hac
      · rw [if_pos hac]
      · subst hac
        rw [if_neg (lt_irrefl a), if_neg (lt_irrefl a)] at h2 ⊢
        exact pathLe_trans as bs cs h1 h2
      · rw [if_neg (lt_asymm hac), if_pos hac] at h2
        exact Bool.noConfusion h2
    · rw [if_neg (lt_asymm hab), if_pos hab] at h1
      exact Bool.noConfusion h1

instance : IsTotal Path pathLeP := ⟨fun p q => pathLe_total p q⟩

instance : IsTrans Path pathLeP := ⟨fun p q r => pathLe_trans p q r⟩

theorem detect_pos {fs : FS} {root : Path} {name : String}
    (hroot : root ∈ fs.dom) (hname : root.getLast? = some name)
    (hdir : fs.isDir (root ++ [name])) :
    detect_nesting fs root =
      .ok [⟨root, root ++ [name],
        sortPaths (fs.dom.filter (fun q => childOfB (root ++ [name]) q))⟩] := by
  simp [detect_nesting, FS.canonicalize, list_dir, hroot, hname, hdir]

theorem detect_neg {fs : FS} {root : Path} {name : String}
    (hroot : root ∈ fs.dom) (hname : root.getLast? = some name)
    (hdir : ¬ fs.isDir (root ++ [name])) :
    detect_nesting fs root = .ok [] := by
  simp [detect_nesting, FS.canonicalize, hroot, hname, hdir]

theorem detect_noname {fs : FS} {root : Path}
    (hroot : root ∈ fs.dom) (hname : root.getLast? = none) :
    detect_nesting fs root =
      .error (.other ("cannot determine name of " ++ pathDisplay root)) := by
  simp [detect_nesting, FS.canonicalize, hroot, hname]

/-! ## Journal save/load lemmas -/

theorem save_load_roundtrip (fs : FS) (dir : Path) (l : List MoveRecord)
    (h1 : fs.isDir dir)
    (h2 : ¬ fs.isDir (dir ++ [journalFileName])) :
    (Journal.save fs (Journal.new.record l) dir).2 =
      .ok (dir ++ [journalFileName]) ∧
    Journal.load (Journal.save fs (Journal.new.record l) dir).1 dir =
      .ok ⟨l⟩ := by
  have hent : (Journal.new.record l).entries = l := by
    simp [Journal.new, Journal.record]
  constructor
  · simp [Journal.save, hent, FS.writeFile, List.getLast?_concat,
      List.dropLast_concat, h1, h2]
  · by_cases hm : (dir ++ [journalFileName]) ∈ fs.dom
    · simp [Journal.save, hent, FS.writeFile, List.getLast?_concat,
        List.dropLast_concat, h1, h2, Journal.load, FS.readFile, hm]
    · simp [Journal.save, hent, FS.writeFile, List.getLast?_concat,
        List.dropLast_concat, h1, h2, Journal.load, FS.readFile, hm]

/-! ## Claim theorems -/

/-- Claim C1 (confirmed): when the scanner finds at least one collision on a
candidate, `flatten` (dry-run or live) returns a `Collision` error carrying
the first conflicting existing path and the filesystem state is returned
unchanged — the nested directory still exists, no child has moved, and the
nested directory is not removed. -/
theorem c1_collision_aborts (fs : FS) (c : NestingCandidate) (dr : Bool)
    (col : Collision) (tail : List Collision)
    (h : (scan fs c).collisions = col :: tail) :
    flatten fs c dr = (fs, .error (.collision col.existing)) :=
  flatten_collision h

theorem c1_witness :
    (scan ⟨[[], ["p"], ["p", "p"], ["p", "p", "a"], ["p", "a"]],
        fun _ => .dir, fun _ _ => false⟩
      ⟨["p"], ["p", "p"], [["p", "p", "a"]]⟩).collisions =
        [⟨["p", "p", "a"], ["p", "a"]⟩] ∧
    flatten ⟨[[], ["p"], ["p", "p"], ["p", "p", "a"], ["p", "a"]],
        fun _ => .dir, fun _ _ => false⟩
      ⟨["p"], ["p", "p"], [["p", "p", "a"]]⟩ false =
      (⟨[[], ["p"], ["p", "p"], ["p", "p", "a"], ["p", "a"]],
        fun _ => .dir, fun _ _ => false⟩,
       .error (.collision ["p", "a"])) :=
  ⟨by decide, c1_collision_aborts _ _ false ⟨["p", "p", "a"], ["p", "a"]⟩ []
    (by decide)⟩

/-- Claim C2 counterexample: the candidate `project/project/project` is
collision-free (its only child is skipped by both the scanner and the
mover because its destination is the nested directory itself), yet a live
flatten does not succeed — it fails with an `Io` error when removing the
still-non-empty nested directory. -/
theorem c2_counterexample :
    (scan ⟨[[], ["project"], ["project", "project"],
          ["project", "project", "project"]], fun _ => .dir, fun _ _ => false⟩
      ⟨["project"], ["project", "project"],
        [["project", "project", "project"]]⟩).collisions = [] ∧
    (flatten ⟨[[], ["project"], ["project", "project"],
          ["project", "project", "project"]], fun _ => .dir, fun _ _ => false⟩
      ⟨["project"], ["project", "project"],
        [["project", "project", "project"]]⟩ false).2 =
      .error (.io ["project", "project"]) := by
  decide

/-- Claim C2 (corrected): on a collision-free snapshot candidate none of
whose children carries the nested directory's own name, a live flatten
succeeds; afterwards the nested directory and its whole subtree are gone,
every former child exists at its parent-level destination with its kind
preserved, and the returned move list has one record per child. -/
theorem c2_flatten_success (fs : FS) (c : NestingCandidate) (name : String)
    (names : List String)
    (h1 : c.nested = c.parent ++ [name])
    (h2 : c.nested ∈ fs.dom)
    (h2k : fs.kind c.nested = .dir)
    (h3 : c.children = names.map (fun n => c.nested ++ [n]))
    (h4 : names.Nodup)
    (h5 : ∀ n ∈ names, c.nested ++ [n] ∈ fs.dom)
    (h7 : name ∉ names)
    (h8 : (scan fs c).collisions = [])
    (h9 : ∀ s d, fs.renameFails s d = false)
    (hd : ∀ q ∈ fs.dom, c.nested.isPrefixOf q = true → q ≠ c.nested →
      ∃ n ∈ names, (c.nested ++ [n]).isPrefixOf q = true) :
    ∃ (fsF : FS) (res : MoveResult),
      flatten fs c false = (fsF, .ok res) ∧
      res.moved = names.map (fun n => ⟨c.nested ++ [n], c.parent ++ [n]⟩) ∧
      res.moved.length = c.children.length ∧
      ¬ fsF.pathExists c.nested ∧
      (∀ q ∈ fsF.dom, c.nested.isPrefixOf q = false) ∧
      (∀ n ∈ names, (c.parent ++ [n]) ∈ fsF.dom ∧
        fsF.kind (c.parent ++ [n]) = fs.kind (c.nested ++ [n])) :=
  flatten_apply_ok fs c name names h1 h2 h2k h3 h4 h5 h7 h8 h9 hd

theorem c2_witness :
    ∃ (fsF : FS) (res : MoveResult),
      flatten ⟨[[], ["p"], ["p", "p"], ["p", "p", "a"], ["p", "p", "b"]],
          fun _ => .dir, fun _ _ => false⟩
        ⟨["p"], ["p", "p"], [["p", "p", "a"], ["p", "p", "b"]]⟩ false =
        (fsF, .ok res) ∧
      res.moved = ["a", "b"].map
        (fun n => ⟨["p", "p"] ++ [n], ["p"] ++ [n]⟩) ∧
      res.moved.length =
        ([["p", "p", "a"], ["p", "p", "b"]] : List Path).length ∧
      ¬ fsF.pathExists ["p", "p"] ∧
      (∀ q ∈ fsF.dom, (["p", "p"] : Path).isPrefixOf q = false) ∧
      (∀ n ∈ ["a", "b"], (["p"] ++ [n]) ∈ fsF.dom ∧
        fsF.kind (["p"] ++ [n]) =
          (⟨[[], ["p"], ["p", "p"], ["p", "p", "a"], ["p", "p", "b"]],
            fun _ => .dir, fun _ _ => false⟩ : FS).kind (["p", "p"] ++ [n])) :=
  c2_flatten_success _ _ "p" ["a", "b"] (by decide) (by decide) rfl
    (by decide) (by decide) (by decide) (by decide) (by decide)
    (fun _ _ => rfl) (by decide)

/-- Claim C3 (confirmed): a dry-run flatten never mutates the filesystem
state, and whenever a live flatten on the same state succeeds, the dry run
succeeds and returns exactly the same move list. -/
theorem c3_dry_run_faithful (fs : FS) (c : NestingCandidate) :
    (flatten fs c true).1 = fs ∧
    ∀ r : MoveResult,
      (flatten fs c false).2 = .ok r → (flatten fs c true).2 = .ok r := by
  constructor
  · cases hcol : (scan fs c).collisions with
    | cons col tail => rw [flatten_collision hcol]
    | nil =>
      rcases hl : flattenLoop fs c.parent c.nested c.children true []
        with ⟨fs', res⟩
      have hfst : fs' = fs := by
        have h := flattenLoop_dry_fst c.parent c.nested c.children fs []
        rw [hl] at h
        exact h
      cases res with
      | error e => rw [flatten_nil_err hcol hl, hfst]
      | ok m => rw [flatten_ok_dry hcol hl, hfst]
  · intro r hok
    cases hcol : (scan fs c).collisions with
    | cons col tail =>
      rw [flatten_collision hcol] at hok
      exact Except.noConfusion hok
    | nil =>
      rcases hl : flattenLoop fs c.parent c.nested c.children false []
        with ⟨fs₂, res⟩
      cases res with
      | error e =>
        rw [flatten_nil_err hcol hl] at hok
        exact Except.noConfusion hok
      | ok m =>
        cases hrm : fs₂.removeDir c.nested with
        | none =>
          rw [flatten_wet_removeFail hcol hl hrm] at hok
          exact Except.noConfusion hok
        | some fs₃ =>
          rw [flatten_ok_wet hcol hl hrm] at hok
          have hdry :=
            flattenLoop_dry_of_wet c.parent c.nested c.children fs fs₂ [] m hl fs
          rw [flatten_ok_dry hcol hdry]
          exact hok

theorem c3_witness :
    (flatten ⟨[[], ["p"], ["p", "p"], ["p", "p", "a"]],
        fun _ => .dir, fun _ _ => false⟩
      ⟨["p"], ["p", "p"], [["p", "p", "a"]]⟩ true).1 =
      ⟨[[], ["p"], ["p", "p"], ["p", "p", "a"]],
        fun _ => .dir, fun _ _ => false⟩ ∧
    (flatten ⟨[[], ["p"], ["p", "p"], ["p", "p", "a"]],
        fun _ => .dir, fun _ _ => false⟩
      ⟨["p"], ["p", "p"], [["p", "p", "a"]]⟩ true).2 =
      .ok ⟨[⟨["p", "p", "a"], ["p", "a"]⟩]⟩ :=
  ⟨(c3_dry_run_faithful _ _).1,
   (c3_dry_run_faithful _ _).2 ⟨[⟨["p", "p", "a"], ["p", "a"]⟩]⟩ (by decide)⟩

/-- Claim C4 (confirmed): for an existing root whose canonical path has a
final name component: if `root/<name>` does not exist or is not a directory,
`detect_nesting` returns `Ok []` (not an error); otherwise it returns
exactly one candidate whose `nested` is the canonical root joined with the
root's own final name component and whose `children` is the
lexicographically sorted list of `nested`'s immediate entries. -/
theorem c4_detect_spec (fs : FS) (root : Path) (name : String)
    (hroot : root ∈ fs.dom) (hname : root.getLast? = some name) :
    (¬ fs.isDir (root ++ [name]) → detect_nesting fs root = .ok []) ∧
    (fs.isDir (root ++ [name]) →
      ∃ ch : List Path,
        detect_nesting fs root = .ok [⟨root, root ++ [name], ch⟩] ∧
        List.Sorted pathLeP ch ∧
        List.Perm ch (fs.dom.filter (fun q => childOfB (root ++ [name]) q))) :=
  ⟨fun hdir => detect_neg hroot hname hdir,
   fun hdir => ⟨_, detect_pos hroot hname hdir,
     List.sorted_insertionSort _ _, List.perm_insertionSort _ _⟩⟩

theorem c4_witness :
    (detect_nesting ⟨[[], ["p"]], fun _ => .dir, fun _ _ => false⟩ ["p"] =
      .ok []) ∧
    (∃ ch : List Path,
      detect_nesting ⟨[[], ["p"], ["p", "p"], ["p", "p", "b"], ["p", "p", "a"]],
          fun _ => .dir, fun _ _ => false⟩ ["p"] =
        .ok [⟨["p"], ["p", "p"], ch⟩] ∧
      List.Sorted pathLeP ch ∧
      List.Perm ch
        ((⟨[[], ["p"], ["p", "p"], ["p", "p", "b"], ["p", "p", "a"]],
            fun _ => .dir, fun _ _ => false⟩ : FS).dom.filter
          (fun q => childOfB ["p", "p"] q))) :=
  ⟨(c4_detect_spec ⟨[[], ["p"]], fun _ => .dir, fun _ _ => false⟩
      ["p"] "p" (by decide) (by decide)).1 (by decide),
   (c4_detect_spec _ ["p"] "p" (by decide) (by decide)).2 (by decide)⟩

/-- Claim C5 counterexample: for the chained journal
`[{from: b, to: c}, {from: a, to: b}]` on a filesystem where `b` and `c`
exist, the first rollback reverses every entry (count 2 = the journal
length: the reverse walk renames `b` to `a`, then `c` back to `b`), yet a
second rollback is not a no-op returning count 0 — the recreated `b` is
renamed again, so it returns count 1. -/
theorem c5_counterexample :
    (Journal.rollback ⟨[[], ["b"], ["c"]], fun _ => .dir, fun _ _ => false⟩
        ⟨[⟨["b"], ["c"]⟩, ⟨["a"], ["b"]⟩]⟩).2 = .ok 2 ∧
    (Journal.rollback
        (Journal.rollback ⟨[[], ["b"], ["c"]], fun _ => .dir, fun _ _ => false⟩
          ⟨[⟨["b"], ["c"]⟩, ⟨["a"], ["b"]⟩]⟩).1
        ⟨[⟨["b"], ["c"]⟩, ⟨["a"], ["b"]⟩]⟩).2 = .ok 1 := by
  decide

/-- Claim C5 (corrected): rollback walks the entries in reverse order,
renaming each destination that still exists back to its origin and counting
it, and silently skipping destinations that no longer exist; for a journal
with separated paths — no recorded origin lies on the path of a recorded
destination, as in any journal written by a single flatten, whose origins
lie inside `nested` and destinations in `parent` — after a rollback that
reversed every entry no recorded destination exists any more and a second
rollback of the same journal is a no-op returning count 0.  (Without the
separation condition the second rollback can re-fire, see the
counterexample.) -/
theorem c5_rollback_idempotent (fs : FS) (es : List MoveRecord)
    (hsep : ∀ e ∈ es, ∀ e' ∈ es, (e.«from»).isPrefixOf e'.«to» = false)
    (hfull : (Journal.rollback fs ⟨es⟩).2 = .ok es.length) :
    (∀ e ∈ es, e.«to» ∉ ((Journal.rollback fs ⟨es⟩).1).dom) ∧
    Journal.rollback (Journal.rollback fs ⟨es⟩).1 ⟨es⟩ =
      ((Journal.rollback fs ⟨es⟩).1, .ok 0) := by
  have hpair : Journal.rollback fs ⟨es⟩ =
      ((Journal.rollback fs ⟨es⟩).1, .ok es.length) := by
    rw [← hfull]
  have hfull' : rollbackLoop fs es.reverse 0 =
      ((Journal.rollback fs ⟨es⟩).1, .ok (0 + es.reverse.length)) := by
    rw [show 0 + es.reverse.length = es.length by simp]
    exact hpair
  have habs := rollbackLoop_full es.reverse fs _ 0
    (fun e he e' he' =>
      hsep e (List.mem_reverse.mp he) e' (List.mem_reverse.mp he'))
    hfull'
  refine ⟨fun e he => habs e (List.mem_reverse.mpr he), ?_⟩
  show rollbackLoop _ es.reverse 0 = _
  exact rollbackLoop_all_absent es.reverse _ 0 habs

theorem c5_witness :
    (∀ e ∈ [(⟨["orig"], ["moved"]⟩ : MoveRecord)],
      e.«to» ∉ ((Journal.rollback
        ⟨[[], ["moved"]], fun _ => .dir, fun _ _ => false⟩
        ⟨[⟨["orig"], ["moved"]⟩]⟩).1).dom) ∧
    Journal.rollback
        (Journal.rollback ⟨[[], ["moved"]], fun _ => .dir, fun _ _ => false⟩
          ⟨[⟨["orig"], ["moved"]⟩]⟩).1
        ⟨[⟨["orig"], ["moved"]⟩]⟩ =
      ((Journal.rollback ⟨[[], ["moved"]], fun _ => .dir, fun _ _ => false⟩
          ⟨[⟨["orig"], ["moved"]⟩]⟩).1, .ok 0) :=
  c5_rollback_idempotent _ [⟨["orig"], ["moved"]⟩] (by decide) (by decide)

/-- Claim C6 (confirmed): recording a batch of moves into a fresh journal,
saving it into a writable directory, and loading from that directory yields
a journal whose entry list equals, in content and order, the list that was
recorded. -/
theorem c6_save_load_roundtrip (fs : FS) (dir : Path) (l : List MoveRecord)
    (h1 : fs.isDir dir)
    (h2 : ¬ fs.isDir (dir ++ [journalFileName])) :
    (Journal.save fs (Journal.new.record l) dir).2 =
      .ok (dir ++ [journalFileName]) ∧
    Journal.load (Journal.save fs (Journal.new.record l) dir).1 dir =
      .ok ⟨l⟩ :=
  save_load_roundtrip fs dir l h1 h2

theorem c6_witness :
    (Journal.save ⟨[[]], fun _ => .dir, fun _ _ => false⟩
      (Journal.new.record [⟨["a"], ["b"]⟩, ⟨["c"], ["d"]⟩]) []).2 =
      .ok ([] ++ [journalFileName]) ∧
    Journal.load
        (Journal.save ⟨[[]], fun _ => .dir, fun _ _ => false⟩
          (Journal.new.record [⟨["a"], ["b"]⟩, ⟨["c"], ["d"]⟩]) []).1 [] =
      .ok ⟨[⟨["a"], ["b"]⟩, ⟨["c"], ["d"]⟩]⟩ :=
  c6_save_load_roundtrip _ [] [⟨["a"], ["b"]⟩, ⟨["c"], ["d"]⟩]
    (by decide) (by decide)

/-- Claim C7 counterexample: a directory whose self-named child directory
sits next to another sibling directory is still reported as a candidate —
the claim that detection requires the self-named child to be the sole
content is false on this input. -/
theorem c7_counterexample :
    detect_nesting
      ⟨[[], ["project"], ["project", "project"], ["project", "other"],
          ["project", "project", "src"]], fun _ => .dir, fun _ _ => false⟩
      ["project"] =
      .ok [⟨["project"], ["project", "project"],
        [["project", "project", "src"]]⟩] := by
  decide

/-- Claim C7 (corrected): `detect_nesting` checks only that the self-named
child is a directory; sibling entries of the nested directory do not
suppress detection — exactly one candidate is still returned. -/
theorem c7_detect_ignores_siblings (fs : FS) (root : Path) (name : String)
    (sib : Path)
    (hroot : root ∈ fs.dom) (hname : root.getLast? = some name)
    (hdir : fs.isDir (root ++ [name]))
    (_hsib : sib ∈ fs.dom) (_hchild : childOfB root sib = true)
    (_hne : sib ≠ root ++ [name]) :
    ∃ ch : List Path,
      detect_nesting fs root = .ok [⟨root, root ++ [name], ch⟩] :=
  ⟨_, detect_pos hroot hname hdir⟩

theorem c7_witness :
    ∃ ch : List Path,
      detect_nesting
        ⟨[[], ["project"], ["project", "project"], ["project", "other"],
            ["project", "project", "src"]], fun _ => .dir, fun _ _ => false⟩
        ["project"] =
        .ok [⟨["project"], ["project", "project"], ch⟩] :=
  c7_detect_ignores_siblings _ ["project"] "project" ["project", "other"]
    (by decide) (by decide) (by decide) (by decide) (by decide) (by decide)

/-- Claim C8 counterexample: at the filesystem root (canonical path with no
final name component) detection fails, but the error is of the `Other`
kind, not an `InvalidInput` kind — the error enumeration of `error.rs` has
no `InvalidInput` variant at all. -/
theorem c8_counterexample :
    detect_nesting ⟨[[]], fun _ => .dir, fun _ _ => false⟩ [] =
      .error (.other "cannot determine name of /") := by
  decide

/-- Claim C8 (corrected): when canonicalization succeeds but the canonical
path has no final name component, `detect_nesting` fails with an error of
the `Other` kind carrying the message `cannot determine name of <path>`. -/
theorem c8_detect_root_error_other (fs : FS) (root : Path)
    (hroot : root ∈ fs.dom) (hname : root.getLast? = none) :
    detect_nesting fs root =
      .error (.other ("cannot determine name of " ++ pathDisplay root)) :=
  detect_noname hroot hname

theorem c8_witness :
    detect_nesting ⟨[[], ["x"]], fun _ => .dir, fun _ _ => false⟩ [] =
      .error (.other ("cannot determine name of " ++ pathDisplay [])) :=
  c8_detect_root_error_other _ [] (by decide) (by decide)

/-- Claim C9 (confirmed): when the environment refuses the rename of a
child `k` of a collision-free snapshot candidate after the children in
`done` were already processed (`k ≠ name` because a child bearing the
nested directory's own name is skipped, never renamed, so only other
children can fail), the whole flatten aborts with an `Io` error naming
that child; the children moved before the failure remain at their
parent-level destinations (their old paths are gone), a self-named child
among the processed ones was merely skipped and is untouched, no later
child has been moved (their destinations are still free), the nested
directory is not removed, and no compensating rollback is performed. -/
theorem c9_rename_failure_partial (fs : FS) (c : NestingCandidate)
    (name k : String) (done rest : List String)
    (h1 : c.nested = c.parent ++ [name])
    (h2 : c.nested ∈ fs.dom)
    (h2k : fs.kind c.nested = .dir)
    (h3 : c.children = (done ++ k :: rest).map (fun n => c.nested ++ [n]))
    (h4 : (done ++ k :: rest).Nodup)
    (h5 : ∀ n ∈ done ++ k :: rest, c.nested ++ [n] ∈ fs.dom)
    (hk : k ≠ name)
    (h8 : (scan fs c).collisions = [])
    (h9a : ∀ n ∈ done, n ≠ name →
      fs.renameFails (c.nested ++ [n]) (c.parent ++ [n]) = false)
    (h9b : fs.renameFails (c.nested ++ [k]) (c.parent ++ [k]) = true) :
    ∃ fs',
      flatten fs c false = (fs', .error (.io (c.nested ++ [k]))) ∧
      (∀ n ∈ done, n ≠ name →
        (c.parent ++ [n]) ∈ fs'.dom ∧ (c.nested ++ [n]) ∉ fs'.dom) ∧
      (∀ n ∈ done, n = name → (c.nested ++ [n]) ∈ fs'.dom) ∧
      (∀ n ∈ k :: rest, (c.nested ++ [n]) ∈ fs'.dom ∧
        (n ≠ name → (c.parent ++ [n]) ∉ fs'.dom)) ∧
      c.nested ∈ fs'.dom ∧ fs'.kind c.nested = .dir :=
  flatten_apply_fail fs c name k done rest h1 h2 h2k h3 h4 h5 hk h8 h9a h9b

theorem c9_witness :
    ∃ fs' : FS,
      flatten
        ⟨[[], ["p"], ["p", "p"], ["p", "p", "a"], ["p", "p", "p"],
            ["p", "p", "b"]],
          fun _ => .dir, fun s _ => s == ["p", "p", "b"]⟩
        ⟨["p"], ["p", "p"],
          [["p", "p", "a"], ["p", "p", "p"], ["p", "p", "b"]]⟩ false =
        (fs', .error (.io (["p", "p"] ++ ["b"]))) ∧
      (∀ n ∈ ["a", "p"], n ≠ "p" → (["p"] ++ [n]) ∈ fs'.dom ∧
        (["p", "p"] ++ [n]) ∉ fs'.dom) ∧
      (∀ n ∈ ["a", "p"], n = "p" → (["p", "p"] ++ [n]) ∈ fs'.dom) ∧
      (∀ n ∈ ["b"], (["p", "p"] ++ [n]) ∈ fs'.dom ∧
        (n ≠ "p" → (["p"] ++ [n]) ∉ fs'.dom)) ∧
      (["p", "p"] : Path) ∈ fs'.dom ∧ fs'.kind ["p", "p"] = .dir :=
  c9_rename_failure_partial _ _ "p" "b" ["a", "p"] [] (by decide) (by decide)
    rfl (by decide) (by decide) (by decide) (by decide) (by decide)
    (by decide) (by decide)

/-- Claim C10 (confirmed): rollback is not atomic with respect to rename
failures — if, after the entries later in the journal were processed in
the reverse walk, renaming some entry's still-existing destination back to
its origin fails, rollback aborts immediately with an `Io` error naming
that destination; the state keeps exactly the reversals already performed,
the remaining (earlier) entries are untouched, and no count is returned. -/
theorem c10_rollback_not_atomic (fs : FS) (pre post : List MoveRecord)
    (e : MoveRecord) (k : Nat)
    (h1 : (rollbackLoop fs post.reverse 0).2 = .ok k)
    (h2 : ((rollbackLoop fs post.reverse 0).1).pathExists e.«to»)
    (h3 : (((rollbackLoop fs post.reverse 0).1).rename
      e.«to» e.«from»).isNone = true) :
    Journal.rollback fs ⟨pre ++ e :: post⟩ =
      ((rollbackLoop fs post.reverse 0).1, .error (.io e.«to»)) := by
  have hre := Option.isNone_iff_eq_none.mp h3
  have hpair : rollbackLoop fs post.reverse 0 =
      ((rollbackLoop fs post.reverse 0).1, .ok k) := by
    rw [← h1]
  show rollbackLoop fs (pre ++ e :: post).reverse 0 = _
  rw [List.reverse_append, List.reverse_cons, List.append_assoc,
    List.singleton_append,
    rollbackLoop_append_ok post.reverse fs _ 0 k _ hpair]
  exact rollbackLoop_cons_fail h2 hre

theorem c10_witness :
    Journal.rollback
        ⟨[[], ["b1"], ["b2"]], fun _ => .dir, fun s _ => s == ["b1"]⟩
        ⟨[⟨["a1"], ["b1"]⟩, ⟨["a2"], ["b2"]⟩]⟩ =
      ((rollbackLoop
          ⟨[[], ["b1"], ["b2"]], fun _ => .dir, fun s _ => s == ["b1"]⟩
          ([(⟨["a2"], ["b2"]⟩ : MoveRecord)]).reverse 0).1,
        .error (.io ["b1"])) :=
  c10_rollback_not_atomic _ [] [⟨["a2"], ["b2"]⟩] ⟨["a1"], ["b1"]⟩ 1
    (by decide) (by decide) (by decide)

end FsCleaner
